import Mathlib

/-!
Verification of the D-Bus signature grammar engine, the name grammar
validators, the numeric bounds check, and the argument codec of
python-dbusx (`lib/dbusx/_dbus.c`).

Signatures and Python strings are embedded as `List Char`; the
NUL-terminated C strings of the original are modelled by reading the
character `'\x00'` past the end of a list.  The libdbus message iterator
is embedded as a tree of wire values (`WireVal`): appending a basic value
or opening/closing a container corresponds to building a node, reading
corresponds to walking the tree.  Python objects passed to and produced
by the codec are embedded as the tagged tree `Value`.  Python exceptions
are embedded by the enumeration `PyErr`; each constructor corresponds to
one `RETURN_..._ERROR` site of the C source (the C format string is
quoted in a comment).  Allocation failures (`RETURN_MEMORY_ERROR`) are
not modelled: the embedding assumes allocation succeeds.
-/

namespace Dbusx

/-- The NUL character, the terminator of C strings. -/
def nul : Char := '\x00'

/-- Read byte `i` of a C string buffer: positions at or past the end of
the list read the terminating NUL. -/
def rd (buf : List Char) (i : Nat) : Char := buf.getD i nul

/-- Write byte `i` of a C string buffer (`List.set` ignores writes past
the end, which the C code never performs on the strings it processes). -/
def wr (buf : List Char) (i : Nat) (c : Char) : List Char := buf.set i c

/-! ## The signature grammar engine: `get_one_full_type`

`get_one_full_type` parses one full type at the head of a signature.  On
a struct or dict-entry opener it scans forward counting nested
occurrences of the same opener/closer pair until the count returns to
zero.  `scanEnd op cl l d` models that scanning loop
(`while (*++end != '\000' && depth > 0) ...`): it returns the number of
characters of `l` consumed until the depth `d` returns to zero, or
`none` if the string ends first. -/

def scanEnd (op cl : Char) : List Char → Nat → Option Nat
  | _, 0 => some 0
  | [], _ + 1 => none
  | c :: rest, d + 1 =>
      let dn := if c = op then d + 2 else if c = cl then d else d + 1
      (scanEnd op cl rest dn).map (fun n => n + 1)

/-- Model of `get_one_full_type` (`_dbus.c:260`).  In place of the C
pointer into the NUL-terminated string it returns the parsed full type
together with the remainder of the signature; `none` models both the
NULL error return ("unbalanced format") and the NULL returned at the end
of the string. -/
def get_one_full_type : List Char → Option (List Char × List Char)
  | [] => none
  | 'a' :: rest =>
      match get_one_full_type rest with
      | none => none
      | some (t, r) => some ('a' :: t, r)
  | '(' :: rest =>
      match scanEnd '(' ')' rest 1 with
      | none => none
      | some n => some ('(' :: rest.take n, rest.drop n)
  | '{' :: rest =>
      match scanEnd '{' '}' rest 1 with
      | none => none
      | some n => some ('{' :: rest.take n, rest.drop n)
  | c :: rest => some ([c], rest)

theorem scanEnd_le (op cl : Char) :
    ∀ (l : List Char) (d n : Nat), scanEnd op cl l d = some n → n ≤ l.length := by
  intro l
  induction l with
  | nil =>
      intro d n h
      cases d with
      | zero => simp [scanEnd] at h; omega
      | succ d => simp [scanEnd] at h
  | cons x rest ih =>
      intro d n h
      cases d with
      | zero => simp [scanEnd] at h; omega
      | succ d =>
          simp only [scanEnd, Option.map_eq_some'] at h
          obtain ⟨m, hm, hn⟩ := h
          have := ih _ _ hm
          simp only [List.length_cons]
          omega

theorem scanEnd_pos (op cl : Char) :
    ∀ (l : List Char) (d n : Nat), scanEnd op cl l (d + 1) = some n → 0 < n := by
  intro l d n h
  cases l with
  | nil => simp [scanEnd] at h
  | cons x rest =>
      simp only [scanEnd, Option.map_eq_some'] at h
      obtain ⟨m, _, hn⟩ := h
      omega

theorem scanEnd_append (op cl : Char) :
    ∀ (l : List Char) (d n : Nat) (u : List Char),
      scanEnd op cl l d = some n → scanEnd op cl (l ++ u) d = some n := by
  intro l
  induction l with
  | nil =>
      intro d n u h
      cases d with
      | zero => simp [scanEnd] at h ⊢; omega
      | succ d => simp [scanEnd] at h
  | cons x rest ih =>
      intro d n u h
      cases d with
      | zero => simp [scanEnd] at h ⊢; omega
      | succ d =>
          simp only [scanEnd, Option.map_eq_some'] at h
          obtain ⟨m, hm, hn⟩ := h
          simp only [List.cons_append, scanEnd, Option.map_eq_some']
          exact ⟨m, ih _ _ _ hm, hn⟩

theorem scanEnd_take (op cl : Char) :
    ∀ (l : List Char) (d n : Nat),
      scanEnd op cl l d = some n → scanEnd op cl (l.take n) d = some n := by
  intro l
  induction l with
  | nil => intro d n h; simpa using h
  | cons x rest ih =>
      intro d n h
      cases d with
      | zero =>
          simp [scanEnd] at h
          subst h
          simp [scanEnd]
      | succ d =>
          simp only [scanEnd, Option.map_eq_some'] at h
          obtain ⟨m, hm, hn⟩ := h
          subst hn
          simp only [List.take_succ_cons, scanEnd, Option.map_eq_some']
          exact ⟨m, ih _ _ hm, rfl⟩

theorem getLast?_cons_some {α : Type} (x : α) (l : List α) (a : α)
    (h : l.getLast? = some a) : (x :: l).getLast? = some a := by
  cases l with
  | nil => simp at h
  | cons y ys => rw [List.getLast?_cons_cons]; exact h

theorem scanEnd_last (op cl : Char) :
    ∀ (l : List Char) (d n : Nat), scanEnd op cl l (d + 1) = some n →
      (l.take n).getLast? = some cl := by
  intro l
  induction l with
  | nil => intro d n h; simp [scanEnd] at h
  | cons x rest ih =>
      intro d n h
      simp only [scanEnd, Option.map_eq_some'] at h
      obtain ⟨m, hm, hn⟩ := h
      subst hn
      simp only [List.take_succ_cons]
      by_cases hx : x = op
      · rw [if_pos hx] at hm
        exact getLast?_cons_some _ _ _ (ih _ _ hm)
      · rw [if_neg hx] at hm
        by_cases hc : x = cl
        · rw [if_pos hc] at hm
          cases d with
          | zero =>
              have hm0 : m = 0 := by
                simp [scanEnd] at hm
                omega
              subst hm0
              subst hc
              simp
          | succ d => exact getLast?_cons_some _ _ _ (ih _ _ hm)
        · rw [if_neg hc] at hm
          exact getLast?_cons_some _ _ _ (ih _ _ hm)

/-- The full type returned by `get_one_full_type` is a nonempty prefix of
the input. -/
theorem get_one_full_type_spec :
    ∀ (s t r : List Char), get_one_full_type s = some (t, r) →
      s = t ++ r ∧ 0 < t.length := by
  intro s
  induction s with
  | nil => intro t r h; simp [get_one_full_type] at h
  | cons c rest ih =>
      intro t r h
      by_cases ha : c = 'a'
      · subst ha
        simp only [get_one_full_type] at h
        cases hg : get_one_full_type rest with
        | none => rw [hg] at h; simp at h
        | some tr =>
            obtain ⟨t0, r0⟩ := tr
            rw [hg] at h
            simp only [Option.some.injEq, Prod.mk.injEq] at h
            obtain ⟨ht, hr⟩ := h
            obtain ⟨hrest, _⟩ := ih t0 r0 hg
            subst ht; subst hr
            simp [hrest]
      · by_cases hp : c = '('
        · subst hp
          simp only [get_one_full_type] at h
          cases hn : scanEnd '(' ')' rest 1 with
          | none => rw [hn] at h; simp at h
          | some n =>
              rw [hn] at h
              simp only [Option.some.injEq, Prod.mk.injEq] at h
              obtain ⟨ht, hr⟩ := h
              subst ht; subst hr
              simp
        · by_cases hb : c = '{'
          · subst hb
            simp only [get_one_full_type] at h
            cases hn : scanEnd '{' '}' rest 1 with
            | none => rw [hn] at h; simp at h
            | some n =>
                rw [hn] at h
                simp only [Option.some.injEq, Prod.mk.injEq] at h
                obtain ⟨ht, hr⟩ := h
                subst ht; subst hr
                simp
          · simp only [get_one_full_type, ha, hp, hb, Option.some.injEq,
              Prod.mk.injEq] at h
            obtain ⟨ht, hr⟩ := h
            rw [← ht, ← hr]
            simp



/-- Parsing one full type commutes with appending further input. -/
theorem get_one_full_type_append :
    ∀ (s t r u : List Char), get_one_full_type s = some (t, r) →
      get_one_full_type (s ++ u) = some (t, r ++ u) := by
  intro s
  induction s with
  | nil => intro t r u h; simp [get_one_full_type] at h
  | cons c rest ih =>
      intro t r u h
      by_cases ha : c = 'a'
      · subst ha
        simp only [get_one_full_type] at h
        cases hg : get_one_full_type rest with
        | none => rw [hg] at h; simp at h
        | some tr =>
            obtain ⟨t0, r0⟩ := tr
            rw [hg] at h
            simp only [Option.some.injEq, Prod.mk.injEq] at h
            obtain ⟨ht, hr⟩ := h
            rw [List.cons_append]
            simp only [get_one_full_type]
            rw [ih t0 r0 u hg]
            simp [← ht, ← hr]
      · by_cases hp : c = '('
        · subst hp
          simp only [get_one_full_type] at h
          cases hn : scanEnd '(' ')' rest 1 with
          | none => rw [hn] at h; simp at h
          | some n =>
              rw [hn] at h
              simp only [Option.some.injEq, Prod.mk.injEq] at h
              obtain ⟨ht, hr⟩ := h
              have hle := scanEnd_le '(' ')' rest 1 n hn
              rw [List.cons_append]
              simp only [get_one_full_type]
              rw [scanEnd_append '(' ')' rest 1 n u hn]
              simp only [Option.some.injEq, Prod.mk.injEq]
              constructor
              · rw [← ht, List.take_append_of_le_length hle]
              · rw [← hr, List.drop_append_of_le_length hle]
        · by_cases hb : c = '{'
          · subst hb
            simp only [get_one_full_type] at h
            cases hn : scanEnd '{' '}' rest 1 with
            | none => rw [hn] at h; simp at h
            | some n =>
                rw [hn] at h
                simp only [Option.some.injEq, Prod.mk.injEq] at h
                obtain ⟨ht, hr⟩ := h
                have hle := scanEnd_le '{' '}' rest 1 n hn
                rw [List.cons_append]
                simp only [get_one_full_type]
                rw [scanEnd_append '{' '}' rest 1 n u hn]
                simp only [Option.some.injEq, Prod.mk.injEq]
                constructor
                · rw [← ht, List.take_append_of_le_length hle]
                · rw [← hr, List.drop_append_of_le_length hle]
          · simp only [get_one_full_type, ha, hp, hb, Option.some.injEq,
              Prod.mk.injEq] at h
            obtain ⟨ht, hr⟩ := h
            rw [List.cons_append]
            simp only [get_one_full_type, ha, hp, hb, Option.some.injEq,
              Prod.mk.injEq]
            exact ⟨ht, by rw [← hr]⟩

/-- The full type returned by `get_one_full_type` re-parses as itself,
with nothing left over. -/
theorem get_one_full_type_self :
    ∀ (s t r : List Char), get_one_full_type s = some (t, r) →
      get_one_full_type t = some (t, []) := by
  intro s
  induction s with
  | nil => intro t r h; simp [get_one_full_type] at h
  | cons c rest ih =>
      intro t r h
      by_cases ha : c = 'a'
      · subst ha
        simp only [get_one_full_type] at h
        cases hg : get_one_full_type rest with
        | none => rw [hg] at h; simp at h
        | some tr =>
            obtain ⟨t0, r0⟩ := tr
            rw [hg] at h
            simp only [Option.some.injEq, Prod.mk.injEq] at h
            obtain ⟨ht, hr⟩ := h
            rw [← ht]
            simp only [get_one_full_type]
            rw [ih t0 r0 hg]
      · by_cases hp : c = '('
        · subst hp
          simp only [get_one_full_type] at h
          cases hn : scanEnd '(' ')' rest 1 with
          | none => rw [hn] at h; simp at h
          | some n =>
              rw [hn] at h
              simp only [Option.some.injEq, Prod.mk.injEq] at h
              obtain ⟨ht, _⟩ := h
              rw [← ht]
              have hle := scanEnd_le '(' ')' rest 1 n hn
              simp only [get_one_full_type]
              rw [scanEnd_take '(' ')' rest 1 n hn]
              simp [List.take_take, List.drop_take, Nat.le_of_eq rfl]
        · by_cases hb : c = '{'
          · subst hb
            simp only [get_one_full_type] at h
            cases hn : scanEnd '{' '}' rest 1 with
            | none => rw [hn] at h; simp at h
            | some n =>
                rw [hn] at h
                simp only [Option.some.injEq, Prod.mk.injEq] at h
                obtain ⟨ht, _⟩ := h
                rw [← ht]
                have hle := scanEnd_le '{' '}' rest 1 n hn
                simp only [get_one_full_type]
                rw [scanEnd_take '{' '}' rest 1 n hn]
                simp [List.take_take, List.drop_take, Nat.le_of_eq rfl]
          · simp only [get_one_full_type, ha, hp, hb, Option.some.injEq,
              Prod.mk.injEq] at h
            obtain ⟨ht, _⟩ := h
            rw [← ht]
            simp [get_one_full_type, ha, hp, hb]

/-- A parsed full type of length at least two starts with the array
marker or a bracket opener. -/
theorem get_one_full_type_long_head :
    ∀ (s t r : List Char), get_one_full_type s = some (t, r) → 2 ≤ t.length →
      t.headD nul = 'a' ∨ t.headD nul = '(' ∨ t.headD nul = '{' := by
  intro s t r h hlen
  cases s with
  | nil => simp [get_one_full_type] at h
  | cons c rest =>
      by_cases ha : c = 'a'
      · subst ha
        left
        simp only [get_one_full_type] at h
        cases hg : get_one_full_type rest with
        | none => rw [hg] at h; simp at h
        | some tr =>
            obtain ⟨t0, r0⟩ := tr
            rw [hg] at h
            simp only [Option.some.injEq, Prod.mk.injEq] at h
            rw [← h.1]
            rfl
      · by_cases hp : c = '('
        · subst hp
          right; left
          simp only [get_one_full_type] at h
          cases hn : scanEnd '(' ')' rest 1 with
          | none => rw [hn] at h; simp at h
          | some n =>
              rw [hn] at h
              simp only [Option.some.injEq, Prod.mk.injEq] at h
              rw [← h.1]
              rfl
        · by_cases hb : c = '{'
          · subst hb
            right; right
            simp only [get_one_full_type] at h
            cases hn : scanEnd '{' '}' rest 1 with
            | none => rw [hn] at h; simp at h
            | some n =>
                rw [hn] at h
                simp only [Option.some.injEq, Prod.mk.injEq] at h
                rw [← h.1]
                rfl
          · simp only [get_one_full_type, ha, hp, hb, Option.some.injEq,
              Prod.mk.injEq] at h
            rw [← h.1] at hlen
            simp at hlen

/-- A parsed full type starting with a bracket opener ends with the
matching closer. -/
theorem get_one_full_type_closer :
    ∀ (s t r : List Char) (op cl : Char), get_one_full_type s = some (t, r) →
      (op = '(' ∧ cl = ')') ∨ (op = '{' ∧ cl = '}') →
      t.headD nul = op → t.getLast? = some cl := by
  intro s t r op cl h hop hhead
  cases s with
  | nil => simp [get_one_full_type] at h
  | cons c rest =>
      by_cases ha : c = 'a'
      · subst ha
        simp only [get_one_full_type] at h
        cases hg : get_one_full_type rest with
        | none => rw [hg] at h; simp at h
        | some tr =>
            obtain ⟨t0, r0⟩ := tr
            rw [hg] at h
            simp only [Option.some.injEq, Prod.mk.injEq] at h
            rw [← h.1] at hhead
            simp only [List.headD_cons] at hhead
            rcases hop with ⟨h1, _⟩ | ⟨h1, _⟩ <;> rw [h1] at hhead <;> simp at hhead
      · by_cases hp : c = '('
        · subst hp
          simp only [get_one_full_type] at h
          cases hn : scanEnd '(' ')' rest 1 with
          | none => rw [hn] at h; simp at h
          | some n =>
              rw [hn] at h
              simp only [Option.some.injEq, Prod.mk.injEq] at h
              rw [← h.1] at hhead ⊢
              simp only [List.headD_cons] at hhead
              rcases hop with ⟨h1, h2⟩ | ⟨h1, h2⟩
              · subst h2
                exact getLast?_cons_some _ _ _ (scanEnd_last '(' ')' rest 0 n hn)
              · rw [h1] at hhead; simp at hhead
        · by_cases hb : c = '{'
          · subst hb
            simp only [get_one_full_type] at h
            cases hn : scanEnd '{' '}' rest 1 with
            | none => rw [hn] at h; simp at h
            | some n =>
                rw [hn] at h
                simp only [Option.some.injEq, Prod.mk.injEq] at h
                rw [← h.1] at hhead ⊢
                simp only [List.headD_cons] at hhead
                rcases hop with ⟨h1, h2⟩ | ⟨h1, h2⟩
                · rw [h1] at hhead; simp at hhead
                · subst h2
                  exact getLast?_cons_some _ _ _ (scanEnd_last '{' '}' rest 0 n hn)
          · simp only [get_one_full_type, ha, hp, hb, Option.some.injEq,
              Prod.mk.injEq] at h
            rw [← h.1] at hhead
            simp only [List.headD_cons] at hhead
            rcases hop with ⟨h1, _⟩ | ⟨h1, _⟩ <;> rw [h1] at hhead
            · exact absurd hhead hp
            · exact absurd hhead hb

/-! ## The signature validator `_check_signature` -/

/-- The fourteen type codes accepted as a single basic type by
`_check_signature` (the C string literal is "ybnqiuxtdsogvh"). -/
def basicTypeCodes : List Char :=
  ['y', 'b', 'n', 'q', 'i', 'u', 'x', 't', 'd', 's', 'o', 'g', 'v', 'h']

/-- The opener/closer consistency test at the end of the struct and
dict-entry branch of `_check_signature`:
`(*ptr == '(' && store != ')') || (*ptr == '{' && store != '}')`
rejects. -/
def closerOk (o c : Char) : Bool :=
  !((o == '(' && c != ')') || (o == '{' && c != '}'))

/-- The full-type checking loop of `_check_signature` (`_dbus.c:299`),
without the final `end - start > 255` length check.  Each recursive call
carries its own `≤ 255` conjunct because the C recursion re-enters
`_check_signature`, which performs that check on the sub-span it was
given.  The temporary NUL termination of the C original is rendered by
passing the exact sub-list (`checkSignatureBuffered` below models the
mutation itself). -/
def checkSigCore (s : List Char) (arraydepth structdepth : Nat) : Bool :=
  match h : get_one_full_type s with
  | none => s.isEmpty
  | some (t, rest) =>
    (if t.length = 1 then basicTypeCodes.contains (t.headD nul)
     else if t.headD nul = 'a' then
       decide (arraydepth < 32) &&
         (checkSigCore (t.drop 1) (arraydepth + 1) structdepth &&
           decide ((t.drop 1).length ≤ 255))
     else if t.headD nul = '(' ∨ t.headD nul = '{' then
       decide (structdepth < 32) &&
         (checkSigCore ((t.drop 1).dropLast) arraydepth (structdepth + 1) &&
           decide (((t.drop 1).dropLast).length ≤ 255)) &&
         closerOk (t.headD nul) (t.getLastD nul)
     else true)
    && checkSigCore rest arraydepth structdepth
termination_by s.length
decreasing_by
  all_goals
    obtain ⟨hs, hpos⟩ := get_one_full_type_spec s t rest h
    subst hs
    simp only [List.length_append, List.length_drop, List.length_dropLast]
    omega

/-- Model of `_check_signature(signature, arraydepth, structdepth)`: the
full-type loop followed by the total length check
(`end - start > 255`). -/
def _check_signature (s : List Char) (arraydepth structdepth : Nat) : Bool :=
  checkSigCore s arraydepth structdepth && decide (s.length ≤ 255)

/-- The module-level Python entry point `check_signature(signature)`
(`_dbus.c:2840`), which calls `_check_signature(signature, 0, 0)`. -/
def check_signature (s : List Char) : Bool := _check_signature s 0 0

/-- Model of `split_signature` (`_dbus.c:2855`): enumerate the top-level
full types in order by repeated calls to `get_one_full_type`; `none`
models the "illegal signature string" error. -/
def split_signature (s : List Char) : Option (List (List Char)) :=
  if s.isEmpty then some [] else
    match h : get_one_full_type s with
    | none => none
    | some (t, rest) => (split_signature rest).map (fun ts => t :: ts)
termination_by s.length
decreasing_by
  obtain ⟨hs, hpos⟩ := get_one_full_type_spec s t rest h
  subst hs
  simp only [List.length_append]
  omega

/-! ## The buffered model of `_check_signature` (claim about mutation)

`_check_signature` temporarily NUL-terminates sub-spans of its input
buffer while recursing (`store = *end; *end = '\000'; ...; *end = store`).
The functions below re-embed `get_one_full_type` and `_check_signature`
against an explicit byte buffer with absolute positions so that these
writes, and what the function returns them as, are visible.  The result
is the pair of the C return value and the buffer as it is left on
return. -/

theorem rd_ne_nul_lt (buf : List Char) (i : Nat) (h : rd buf i ≠ nul) :
    i < buf.length := by
  by_contra hge
  apply h
  simp only [rd, List.getD_eq_getElem?_getD]
  rw [List.getElem?_eq_none (by omega)]
  rfl

/-- The bracket scanning loop of `get_one_full_type`, reading from the
buffer: `depth = 1; end = signature;
while (*++end != '\000' && depth > 0) ...`.  The result is the final
value of `end`; the inner `none` is the unbalanced-format error, the
outer `none` fuel exhaustion (see `checkSignatureBufferedFuel`). -/
def scanBufFuel (buf : List Char) (op cl : Char) :
    Nat → Nat → Nat → Option (Option Nat)
  | 0, _, _ => none
  | fuel + 1, e, depth =>
    if rd buf (e + 1) ≠ nul ∧ 0 < depth then
      scanBufFuel buf op cl fuel (e + 1)
        (if rd buf (e + 1) = op then depth + 1
         else if rd buf (e + 1) = cl then depth - 1 else depth)
    else if depth = 0 then some (some (e + 1)) else some none

/-- `scanBufFuel` with enough fuel for any run (the loop advances one
buffer position per step and stops at the terminating NUL). -/
def scanBuf (buf : List Char) (op cl : Char) (e depth : Nat) : Option Nat :=
  (scanBufFuel buf op cl (buf.length + 2) e depth).getD none

/-- `get_one_full_type` reading from the buffer at position `pos`;
returns the position one past the end of the first full type.  The fuel
only bounds the chain of leading array markers. -/
def getOneFullTypeBufferedFuel (buf : List Char) :
    Nat → Nat → Option (Option Nat)
  | 0, _ => none
  | fuel + 1, pos =>
    if rd buf pos = 'a' then getOneFullTypeBufferedFuel buf fuel (pos + 1)
    else if rd buf pos = '(' then some (scanBuf buf '(' ')' pos 1)
    else if rd buf pos = '{' then some (scanBuf buf '{' '}' pos 1)
    else if rd buf pos = nul then some none
    else some (some (pos + 1))

/-- `getOneFullTypeBufferedFuel` with enough fuel for any run. -/
def get_one_full_type_buffered (buf : List Char) (pos : Nat) : Option Nat :=
  (getOneFullTypeBufferedFuel buf (buf.length + 2) pos).getD none

/-- The buffered model of `_check_signature` (`_dbus.c:299`): `start` is
the position the span it was called on begins at (for the final
`end - start > 255` check), `ptr` the current position.  It returns the
C result together with the buffer as it is left on return.  On the
success paths every temporary NUL write is undone (`*end = store`), but
when a recursive call fails the function returns 0 immediately, leaving
the NUL in place.  The leading `fuel` argument only bounds the number of
evaluation steps so that the recursion is structural; `none` means the
(generously chosen) bound of the wrapper below was exceeded, which no
terminating run of the C original does. -/
def checkSignatureBufferedFuel :
    Nat → List Char → Nat → Nat → Nat → Nat → Option (Bool × List Char)
  | 0, _, _, _, _, _ => none
  | fuel + 1, buf, start, ptr, arraydepth, structdepth =>
    if rd buf ptr = nul then some (decide (ptr - start ≤ 255), buf)
    else
      match get_one_full_type_buffered buf ptr with
      | none => some (false, buf)
      | some e =>
        if e - ptr = 1 then
          if basicTypeCodes.contains (rd buf ptr) then
            checkSignatureBufferedFuel fuel buf start e arraydepth structdepth
          else some (false, buf)
        else if rd buf ptr = 'a' then
          if 32 ≤ arraydepth then some (false, buf)
          else
            let store := rd buf e
            match checkSignatureBufferedFuel fuel (wr buf e nul) (ptr + 1)
                (ptr + 1) (arraydepth + 1) structdepth with
            | none => none
            | some res =>
              if res.1 = false then some (false, res.2)
              else
                checkSignatureBufferedFuel fuel (wr res.2 e store) start e
                  arraydepth structdepth
        else if rd buf ptr = '(' ∨ rd buf ptr = '{' then
          if 32 ≤ structdepth then some (false, buf)
          else
            let store := rd buf (e - 1)
            match checkSignatureBufferedFuel fuel (wr buf (e - 1) nul) (ptr + 1)
                (ptr + 1) arraydepth (structdepth + 1) with
            | none => none
            | some res =>
              if res.1 = false then some (false, res.2)
              else
                let buf3 := wr res.2 (e - 1) store
                if (rd buf ptr == '(' && store != ')') ||
                    (rd buf ptr == '{' && store != '}') then some (false, buf3)
                else
                  checkSignatureBufferedFuel fuel buf3 start e
                    arraydepth structdepth
        else checkSignatureBufferedFuel fuel buf start e arraydepth structdepth

/-- `_check_signature(signature, arraydepth, structdepth)` with the
buffer mutation made explicit: result value paired with the buffer left
behind on return. -/
def checkSignatureBuffered (buf : List Char) (arraydepth structdepth : Nat) :
    Option (Bool × List Char) :=
  checkSignatureBufferedFuel ((buf.length + 2) * (buf.length + 2)) buf 0 0
    arraydepth structdepth

/-! ## Name grammar validators -/

/-- The per-character admissibility test in the scanning loop of
`_check_bus_name` (`_dbus.c:188`).  At `i = 0` the C index expression
`name[i-1]` is modelled by `rd name 0` (natural subtraction truncates);
the dot clause that reads it is unreachable there because
`_check_bus_name` rejects a leading dot before the loop, and the digit
clause guards itself with `i > 0`. -/
def busNameCharOk (name : List Char) (i : Nat) : Bool :=
  (rd name i).isAlpha || rd name i == '_' || rd name i == '-' ||
    (rd name i == '.' && rd name (i - 1) != '.' && rd name (i - 1) != ':') ||
    (rd name i == ':' && i == 0) ||
    ((rd name i).isDigit && decide (0 < i) &&
      (rd name (i - 1) != '.' || rd name 0 == ':'))

/-- The scanning loop of `_check_bus_name`: advances until the
terminating NUL, counting dots; `none` models `return 0` from inside the
loop, `some (i, ndots)` the final loop counter and dot count. -/
def busNameLoop (name : List Char) (i ndots : Nat) : Option (Nat × Nat) :=
  if h : rd name i = nul then some (i, ndots)
  else if busNameCharOk name i then
    busNameLoop name (i + 1) (if rd name i == '.' then ndots + 1 else ndots)
  else none
termination_by name.length - i
decreasing_by
  have := rd_ne_nul_lt name i h
  omega

/-- Model of `_check_bus_name` (`_dbus.c:180`).
`DBUS_MAXIMUM_NAME_LENGTH` is 255. -/
def _check_bus_name (name : List Char) : Bool :=
  if rd name 0 = '.' then false
  else
    match busNameLoop name 0 0 with
    | none => false
    | some (i, ndots) =>
        !(rd name (i - 1) == '.' || ndots == 0 || decide (255 < i))

/-- The per-character admissibility test in the scanning loop of
`_check_path` (`_dbus.c:201`), which starts at `i = 1`. -/
def pathCharOk (path : List Char) (i : Nat) : Bool :=
  (rd path i).isAlphanum || rd path i == '_' ||
    (rd path i == '/' && rd path (i - 1) != '/')

/-- The scanning loop of `_check_path`. -/
def pathLoop (path : List Char) (i : Nat) : Option Nat :=
  if h : rd path i = nul then some i
  else if pathCharOk path i then pathLoop path (i + 1)
  else none
termination_by path.length - i
decreasing_by
  have := rd_ne_nul_lt path i h
  omega

/-- Model of `_check_path` (`_dbus.c:201`). -/
def _check_path (path : List Char) : Bool :=
  if rd path 0 = '/' then
    match pathLoop path 1 with
    | none => false
    | some i => !(decide (1 < i) && rd path (i - 1) == '/')
  else false

/-! ### The name grammars as worded by the specification

`busNameSpec` and `pathSpec` transcribe the specification/claim wording
of the two grammars (spec sections 4.1 and 8); the claims assert that
the C validators accept exactly these languages, which is proved below
for NUL-free inputs (a C string cannot contain an interior NUL). -/

/-- One character of the claimed bus-name grammar: alphabetic, `_`, `-`,
a dot not adjacent to another dot and not following the leading colon, a
colon only at position 0, or a digit that is not at position 0 and not
immediately after a dot unless the string starts with a colon. -/
def busNameSpecCharOk (s : List Char) (i : Nat) : Bool :=
  (rd s i).isAlpha || rd s i == '_' || rd s i == '-' ||
    (rd s i == '.' && (i == 0 || (rd s (i - 1) != '.' && rd s (i - 1) != ':'))
      && rd s (i + 1) != '.') ||
    (rd s i == ':' && i == 0) ||
    ((rd s i).isDigit && i != 0 && (rd s (i - 1) != '.' || rd s 0 == ':'))

/-- The claimed bus-name grammar: no leading dot, every character
admissible, no trailing dot, at least one dot, at most 255
characters. -/
def busNameSpec (s : List Char) : Bool :=
  !(rd s 0 == '.') &&
    (List.range s.length).all (fun i => busNameSpecCharOk s i) &&
    !(rd s (s.length - 1) == '.') &&
    decide (s.count '.' ≠ 0) &&
    decide (s.length ≤ 255)

/-- The claimed object-path grammar: starts with `/`; every subsequent
character alphanumeric, `_`, or a `/` not immediately preceded by
another `/`; does not end with `/` unless the whole string is `/`. -/
def pathSpec (s : List Char) : Bool :=
  (rd s 0 == '/') &&
    (List.range (s.length - 1)).all (fun j => pathCharOk s (j + 1)) &&
    (!(rd s (s.length - 1) == '/') || s == ['/'])

/-! ## The value model -/

/-- Python values as seen by the argument codec: `int` covers
`PyLong`, `bool` the two booleans, `dbl` a `PyFloat` whose payload (an
IEEE-754 bit pattern) is carried opaquely because the codec never
computes with it, `str` a `PyUnicode` string, `bytes` a `PyBytes`
object, `tuple` and `list` the two sequence kinds the codec handles, and
`dict` a `PyDict` given as its list of key/value entries in insertion
order. -/
inductive Value where
  | int (n : Int)
  | bool (b : Bool)
  | dbl (bits : Nat)
  | str (s : List Char)
  | bytes (bs : List Nat)
  | tuple (vs : List Value)
  | list (vs : List Value)
  | dict (es : List (Value × Value))

mutual

/-- Structural size of a value (termination measure of the
shape-matching relation). -/
def vsize : Value → Nat
  | .tuple vs => 1 + vlsize vs
  | .list vs => 1 + vlsize vs
  | .dict es => 1 + velsize es
  | _ => 1

def vlsize : List Value → Nat
  | [] => 0
  | v :: vs => 1 + vsize v + vlsize vs

def velsize : List (Value × Value) → Nat
  | [] => 0
  | p :: es => 1 + vsize p.1 + vsize p.2 + velsize es

end

mutual

/-- The recursion weight of a value for the encoder: a string weighs its
length because `PySequence_GetItem` on a string yields fresh
one-character strings, so a plain structural size would not bound the
recursion of `message_append_arg`. -/
def pweight : Value → Nat
  | .str s => s.length
  | .tuple vs => plweight vs
  | .list vs => plweight vs
  | .dict es => peweight es
  | _ => 0

def plweight : List Value → Nat
  | [] => 0
  | v :: vs => pweight v + plweight vs

def peweight : List (Value × Value) → Nat
  | [] => 0
  | p :: es => pweight p.1 + pweight p.2 + peweight es

end

mutual

/-- Structural equality of values, modelling the Python `==` used by
`PyDict_SetItem` for key lookup.  (Python additionally identifies
`True` with `1` and `0.0` with `-0.0`; those identifications can only
matter for dictionaries with mixed-kind or floating keys, which the
signature-directed codec theorems below never quantify over.) -/
def veq : Value → Value → Bool
  | .int a, .int b => a == b
  | .bool a, .bool b => a == b
  | .dbl a, .dbl b => a == b
  | .str a, .str b => a == b
  | .bytes a, .bytes b => a == b
  | .tuple a, .tuple b => vleq a b
  | .list a, .list b => vleq a b
  | .dict a, .dict b => vpeq a b
  | _, _ => false

def vleq : List Value → List Value → Bool
  | [], [] => true
  | a :: as2, b :: bs2 => veq a b && vleq as2 bs2
  | _, _ => false

def vpeq : List (Value × Value) → List (Value × Value) → Bool
  | [], [] => true
  | a :: as2, b :: bs2 => (veq a.1 b.1 && veq a.2 b.2) && vpeq as2 bs2
  | _, _ => false

end

mutual

theorem veq_iff : ∀ (a b : Value), veq a b = true ↔ a = b := by
  intro a b
  cases a with
  | int n => cases b <;> simp [veq]
  | bool x => cases b <;> simp [veq]
  | dbl x => cases b <;> simp [veq]
  | str s => cases b <;> simp [veq]
  | bytes bs => cases b <;> simp [veq]
  | tuple vs => cases b <;> simp [veq, vleq_iff vs]
  | list vs => cases b <;> simp [veq, vleq_iff vs]
  | dict es => cases b <;> simp [veq, vpeq_iff es]

theorem vleq_iff : ∀ (a b : List Value), vleq a b = true ↔ a = b := by
  intro a b
  cases a with
  | nil => cases b <;> simp [vleq]
  | cons v vs =>
      cases b with
      | nil => simp [vleq]
      | cons w ws => simp [vleq, veq_iff v w, vleq_iff vs ws]

theorem vpeq_iff :
    ∀ (a b : List (Value × Value)), vpeq a b = true ↔ a = b := by
  intro a b
  cases a with
  | nil => cases b <;> simp [vpeq]
  | cons p ps =>
      cases b with
      | nil => simp [vpeq]
      | cons q qs =>
          simp [vpeq, veq_iff p.1 q.1, veq_iff p.2 q.2, vpeq_iff ps qs,
            Prod.ext_iff]

end

instance : DecidableEq Value := fun a b =>
  decidable_of_iff (veq a b = true) (veq_iff a b)

/-! ## Python exceptions and object protocol helpers -/

/-- The Python exceptions the codec can raise.  Each constructor is one
`RETURN_TYPE_ERROR` / `RETURN_VALUE_ERROR` / `RETURN_ERROR` site of the
C source; the C format string is given in the constructor comment. -/
inductive PyErr where
  /-- TypeError `expecting integer argument for ... format` in `check_number`. -/
  | expectingInt (code : Char)
  /-- ValueError `value out of range for ... format` in `check_number`. -/
  | outOfRange (code : Char)
  /-- The default branch of `check_number` returns 0 without setting an
  exception (unreachable from the encoder). -/
  | noSuchNumberFormat
  /-- TypeError `expecting str for ... format`. -/
  | expectingStr (code : Char)
  /-- TypeError raised by `PyFloat_AsDouble` on a non-numeric argument. -/
  | floatConversion
  /-- ValueError `invalid object path argument`. -/
  | invalidPathArg
  /-- ValueError `invalid signature`. -/
  | invalidSignatureArg
  /-- TypeError `expecting sequence argument for struct format`. -/
  | expectingSeqStruct
  /-- TypeError `expecting bytes argument for array of byte`. -/
  | expectingBytes
  /-- TypeError `expecting dict argument for dict format`. -/
  | expectingDict
  /-- TypeError `expecting sequence argument for array format`. -/
  | expectingSeqArray
  /-- TypeError `expecting sequence argument for dict_entry format`. -/
  | expectingSeqDictEntry
  /-- TypeError `expecting a sequence for variant`. -/
  | expectingSeqVariant
  /-- ValueError `expecting a sequence of length 2 for variant`. -/
  | variantNotPair
  /-- TypeError `first item in sequence for variant must be string`. -/
  | variantFirstNotStr
  /-- ValueError `invalid signature for variant`. -/
  | invalidVariantSignature
  /-- ValueError `variant signature must be exactly one full type`. -/
  | variantNotSingleType
  /-- Error `unknown format character ...` (default branch of
  `message_append_arg`). -/
  | unknownFormat (code : Char)
  /-- Error `unbalanced ... format` propagated out of
  `get_one_full_type`. -/
  | unbalancedFormat
  /-- TypeError `too few arguments for signature string`. -/
  | tooFewArguments
  /-- TypeError `too many arguments for signature string`. -/
  | tooManyArguments
deriving DecidableEq, Repr

/-- `PyLong_Check` plus value extraction: in Python 3 `bool` is a
subclass of `int`, so booleans pass the check with values 0 and 1. -/
def pyLongVal : Value → Option Int
  | .int n => some n
  | .bool b => some (if b then 1 else 0)
  | _ => none

/-- `PyLong_AsLong` and its sibling conversions, total model: the
encoder only reads the result after `check_number` has succeeded, which
guarantees the argument is integer-kinded and in range (the C call
would return -1 with an exception set otherwise). -/
def pyAsLong : Value → Int
  | .int n => n
  | .bool b => if b then 1 else 0
  | _ => -1

/-- `PyObject_IsTrue` on the modelled value kinds.  For a float the two
IEEE-754 zero bit patterns (+0.0 is 0, -0.0 is 2 ^ 63) are falsy. -/
def pyTruthy : Value → Bool
  | .int n => n != 0
  | .bool b => b
  | .dbl bits => !(bits == 0 || bits == 9223372036854775808)
  | .str s => !s.isEmpty
  | .bytes bs => !bs.isEmpty
  | .tuple vs => !vs.isEmpty
  | .list vs => !vs.isEmpty
  | .dict es => !es.isEmpty

/-- One item of `PySequence_GetItem` on a string: a fresh one-character
string. -/
def strItem (c : Char) : Value := Value.str [c]

/-- One item of `PySequence_GetItem` on a bytes object: a small
integer. -/
def byteItem (b : Nat) : Value := Value.int (Int.ofNat b)

/-- `PySequence_Check` plus item enumeration (`PySequence_GetItem` over
`PySequence_Size` items): lists, tuples, strings (sequences of
one-character strings) and bytes objects (sequences of small integers)
are sequences; dicts and scalars are not. -/
def pySeqItems : Value → Option (List Value)
  | .tuple vs => some vs
  | .list vs => some vs
  | .str s => some (s.map strItem)
  | .bytes bs => some (bs.map byteItem)
  | _ => none

/-- `PyDict_Items`: the entries as a list of fresh two-tuples, in
insertion order. -/
def pyDictItems (es : List (Value × Value)) : List Value :=
  es.map (fun p => Value.tuple [p.1, p.2])

/-- The numeric range cache built by `init_check_number_cache` from the
string table `check_numbers` (`_dbus.c:348`), with the hexadecimal
literals evaluated. -/
def check_number_cache : List Int :=
  [0, 255, 65535, 4294967295, 18446744073709551615,
   -32768, 32767, -2147483648, 2147483647,
   -9223372036854775808, 9223372036854775807]

/-- Model of `check_number` (`_dbus.c:382`): requires an integer-kinded
argument, then compares it against the cached bound pair selected by the
type code (`Pmin`/`Pmax` indices into `check_number_cache`). -/
def check_number (number : Value) (type : Char) : Except PyErr Unit :=
  match pyLongVal number with
  | none => .error (.expectingInt type)
  | some n =>
    let bounds : Option (Nat × Nat) :=
      if type = 'y' then some (0, 1)
      else if type = 'q' then some (0, 2)
      else if type = 'u' then some (0, 3)
      else if type = 't' then some (0, 4)
      else if type = 'n' then some (5, 6)
      else if type = 'i' then some (7, 8)
      else if type = 'x' then some (9, 10)
      else none
    match bounds with
    | none => .error .noSuchNumberFormat
    | some lohi =>
      if n < check_number_cache.getD lohi.1 0 ∨
          check_number_cache.getD lohi.2 0 < n then
        .error (.outOfRange type)
      else .ok ()

/-- Truncating C casts to the unsigned wire widths (`value.u8 = ...`
and so on); after `check_number` has succeeded they are the identity. -/
def wrapU (w : Nat) (n : Int) : Int := n.emod ((2 : Int) ^ w)

/-- Truncating C casts to the signed wire widths. -/
def wrapS (w : Nat) (n : Int) : Int :=
  (n + (2 : Int) ^ (w - 1)).emod ((2 : Int) ^ w) - (2 : Int) ^ (w - 1)

/-! ## The wire model

A `WireVal` is one complete argument as exposed by the libdbus message
iterator: appending a basic value or opening/closing a container in
`message_append_arg` builds one node; `dbus_message_iter_get_arg_type`,
`..._recurse`, `..._get_element_type` and `..._get_signature` in
`message_read_arg` read it back. -/
inductive WireVal where
  | byte (n : Nat)
  | boolean (b : Bool)
  | int16 (n : Int)
  | uint16 (n : Int)
  | int32 (n : Int)
  | uint32 (n : Int)
  | int64 (n : Int)
  | uint64 (n : Int)
  | double (bits : Nat)
  | string (s : List Char)
  | objectPath (s : List Char)
  | signature (s : List Char)
  | struct (items : List WireVal)
  | array (elemSig : List Char) (items : List WireVal)
  | dictEntry (items : List WireVal)
  | variant (sig : List Char) (item : WireVal)

mutual

/-- Structural size of a wire value (termination measure of the
decoder). -/
def wsize : WireVal → Nat
  | .struct items => 1 + wlsize items
  | .array _ items => 1 + wlsize items
  | .dictEntry items => 1 + wlsize items
  | .variant _ w => 1 + wsize w
  | _ => 1

def wlsize : List WireVal → Nat
  | [] => 0
  | w :: ws => 1 + wsize w + wlsize ws

end

/-! ## The argument decoder -/

/-- `PyDict_SetItem d k v`: overwrite the value of an existing equal key
in place (keeping the original key object and position), otherwise
append the new entry. -/
def dictSetItem (d : List (Value × Value)) (k v : Value) :
    List (Value × Value) :=
  if d.any (fun p => veq p.1 k) then
    d.map (fun p => if veq p.1 k then (p.1, v) else p)
  else d ++ [(k, v)]

/-- `dbus_message_iter_get_fixed_array` on a byte array: the contiguous
bytes of the array.  A non-byte element cannot occur in a byte-tagged
wire array; it is mapped to `none`. -/
def readFixedBytes : List WireVal → Option (List Nat)
  | [] => some []
  | .byte n :: ws => (readFixedBytes ws).map (fun bs => n :: bs)
  | _ => none

mutual

/-- Model of `message_read_arg` (`_dbus.c:1076`): decode one complete
wire argument into a Python value, dispatching on the wire type tag.
`none` models the error return (the only error sources besides
allocation are the `illegal dict_entry` check and the dict-entry shape
assertions of the array branch). -/
def message_read_arg : WireVal → Option Value
  | .byte n => some (.int (Int.ofNat n))
  | .boolean b => some (.bool b)
  | .int16 n => some (.int n)
  | .uint16 n => some (.int n)
  | .int32 n => some (.int n)
  | .uint32 n => some (.int n)
  | .int64 n => some (.int n)
  | .uint64 n => some (.int n)
  | .double bits => some (.dbl bits)
  | .string s => some (.str s)
  | .objectPath s => some (.str s)
  | .signature s => some (.str s)
  | .struct items =>
      match message_read_args items with
      | none => none
      | some vs => some (.tuple vs)
  | .array elemSig items =>
      if elemSig.headD nul = 'y' then
        match readFixedBytes items with
        | none => none
        | some bs => some (.bytes bs)
      else if elemSig.headD nul = '{' then
        match readDictItems items [] with
        | none => none
        | some es => some (.dict es)
      else
        match message_read_args items with
        | none => none
        | some vs => some (.list vs)
  | .dictEntry items =>
      match items with
      | k :: v :: _ =>
          match message_read_arg k with
          | none => none
          | some key =>
              match message_read_arg v with
              | none => none
              | some kval => some (.tuple [key, kval])
      | _ => none
  | .variant sig w =>
      match message_read_arg w with
      | none => none
      | some v => some (.tuple [.str sig, v])

/-- Model of `message_read_args` (`_dbus.c:1219`): decode successive
complete arguments until the iterator is exhausted.  The same loop
serves the non-byte non-dict array branch of `message_read_arg` (which
collects into a list instead of a tuple). -/
def message_read_args : List WireVal → Option (List Value)
  | [] => some []
  | w :: ws =>
      match message_read_arg w with
      | none => none
      | some v =>
          match message_read_args ws with
          | none => none
          | some vs => some (v :: vs)

/-- The dict-building loop of the array branch of `message_read_arg`:
decode each entry, assert it is a two-tuple, and insert it with
`PyDict_SetItem` (so a later entry overwrites an earlier entry with an
equal key). -/
def readDictItems :
    List WireVal → List (Value × Value) → Option (List (Value × Value))
  | [], acc => some acc
  | w :: ws, acc =>
      match message_read_arg w with
      | none => none
      | some item =>
          match item with
          | .tuple [k, v] => readDictItems ws (dictSetItem acc k v)
          | _ => none

end

/-! ## The argument encoder -/

theorem plweight_map_str (s : List Char) :
    plweight (s.map strItem) = s.length := by
  induction s with
  | nil => simp [plweight]
  | cons c cs ih =>
      simp [plweight, strItem, pweight, ih]
      omega

theorem plweight_map_int (bs : List Nat) :
    plweight (bs.map byteItem) = 0 := by
  induction bs with
  | nil => simp [plweight]
  | cons b bs ih =>
      simp only [List.map_cons, plweight, byteItem, pweight, ih]

/-- Enumerating a sequence never increases the encoder weight. -/
theorem pySeqItems_plweight (v : Value) (items : List Value)
    (h : pySeqItems v = some items) : plweight items ≤ pweight v := by
  cases v with
  | tuple vs => simp [pySeqItems] at h; subst h; simp [pweight]
  | list vs => simp [pySeqItems] at h; subst h; simp [pweight]
  | str s =>
      simp [pySeqItems] at h
      subst h
      simp [pweight, plweight_map_str]
  | bytes bs =>
      simp [pySeqItems] at h
      subst h
      simp [pweight, plweight_map_int]
  | int n => simp [pySeqItems] at h
  | bool b => simp [pySeqItems] at h
  | dbl bits => simp [pySeqItems] at h
  | dict es => simp [pySeqItems] at h

theorem pyDictItems_plweight (es : List (Value × Value)) :
    plweight (pyDictItems es) = peweight es := by
  induction es with
  | nil => simp [pyDictItems, plweight, peweight]
  | cons p ps ih =>
      simp [pyDictItems, plweight, peweight, pweight] at ih ⊢
      omega

theorem get_one_full_type_ne_nil (s t r : List Char)
    (h : get_one_full_type s = some (t, r)) : s ≠ [] := by
  intro he
  subst he
  simp [get_one_full_type] at h

/-- The inner value of a well-formed variant pair weighs strictly less
than the pair (the inner-signature string is nonempty). -/
theorem variant_pweight_lt (arg vt vv : Value) (subtype : List Char)
    (hseq : pySeqItems arg = some [vt, vv]) (hvt : vt = .str subtype)
    (hne : subtype ≠ []) : pweight vv < pweight arg := by
  subst hvt
  have hlen : 0 < subtype.length := List.length_pos.mpr hne
  cases arg with
  | tuple vs =>
      simp [pySeqItems] at hseq
      subst hseq
      simp [pweight, plweight]
      omega
  | list vs =>
      simp [pySeqItems] at hseq
      subst hseq
      simp [pweight, plweight]
      omega
  | str s =>
      simp [pySeqItems] at hseq
      cases s with
      | nil => simp at hseq
      | cons c1 s1 =>
          cases s1 with
          | nil => simp at hseq
          | cons c2 s2 =>
              cases s2 with
              | nil =>
                  simp [strItem] at hseq
                  obtain ⟨⟨h1, _⟩, h2⟩ := hseq
                  rw [← h2]
                  simp [pweight]
              | cons c3 s3 => simp at hseq
  | bytes bs =>
      simp [pySeqItems] at hseq
      cases bs with
      | nil => simp at hseq
      | cons b1 bs1 =>
          cases bs1 with
          | nil => simp at hseq
          | cons b2 bs2 =>
              cases bs2 with
              | nil => simp [byteItem] at hseq
              | cons b3 bs3 => simp at hseq
  | int n => simp [pySeqItems] at hseq
  | bool b => simp [pySeqItems] at hseq
  | dbl bits => simp [pySeqItems] at hseq
  | dict es => simp [pySeqItems] at hseq

@[simp] theorem plweight_cons (v : Value) (vs : List Value) :
    plweight (v :: vs) = pweight v + plweight vs := by
  simp [plweight]

/-- The basic-type cases of the `message_append_arg` switch
(`_dbus.c:1319`): the fixed-width integers (range-checked by
`check_number`, then narrowed by the C cast), boolean (any truthy
value), double, object path (revalidated by `_check_path`), signature
(revalidated by `_check_signature`), and string; the final branch is the
switch default `unknown format character ...`.  In the double branch,
CPython would also coerce integer and boolean arguments through
`PyFloat_AsDouble`; that conversion constructs an IEEE-754 bit pattern,
which this embedding does not model, so only float arguments are
accepted there (no claim quantifies over that corner). -/
def message_append_basic (code : Char) (arg : Value) : Except PyErr WireVal :=
  if code = 'y' then do
    let _ ← check_number arg 'y'
    pure (.byte (wrapU 8 (pyAsLong arg)).toNat)
  else if code = 'b' then
    pure (.boolean (pyTruthy arg))
  else if code = 'n' then do
    let _ ← check_number arg 'n'
    pure (.int16 (wrapS 16 (pyAsLong arg)))
  else if code = 'q' then do
    let _ ← check_number arg 'q'
    pure (.uint16 (wrapU 16 (pyAsLong arg)))
  else if code = 'i' then do
    let _ ← check_number arg 'i'
    pure (.int32 (wrapS 32 (pyAsLong arg)))
  else if code = 'u' then do
    let _ ← check_number arg 'u'
    pure (.uint32 (wrapU 32 (pyAsLong arg)))
  else if code = 'x' then do
    let _ ← check_number arg 'x'
    pure (.int64 (wrapS 64 (pyAsLong arg)))
  else if code = 't' then do
    let _ ← check_number arg 't'
    pure (.uint64 (wrapU 64 (pyAsLong arg)))
  else if code = 'd' then
    match arg with
    | .dbl bits => pure (.double bits)
    | _ => .error .floatConversion
  else if code = 'o' then
    match arg with
    | .str s =>
        if _check_path s then pure (.objectPath s)
        else .error .invalidPathArg
    | _ => .error (.expectingStr 'o')
  else if code = 'g' then
    match arg with
    | .str s =>
        if _check_signature s 0 0 then pure (.signature s)
        else .error .invalidSignatureArg
    | _ => .error (.expectingStr 'g')
  else if code = 's' then
    match arg with
    | .str s => pure (.string s)
    | _ => .error (.expectingStr 's')
  else .error (.unknownFormat code)

/-- The argument checks of the variant case of `message_append_arg`
(`_dbus.c:1465`): a sequence of length two whose first item is a string
that is a valid signature consisting of exactly one full type; returns
that inner signature and the inner value. -/
def variantParts (arg : Value) : Except PyErr (List Char × Value) :=
  match pySeqItems arg with
  | none => .error .expectingSeqVariant
  | some items =>
      match items with
      | [vt, vv] =>
          match vt with
          | .str subtype =>
              if _check_signature subtype 0 0 = false then
                .error .invalidVariantSignature
              else
                match get_one_full_type subtype with
                | some (t0, []) => .ok (subtype, vv)
                | _ => .error .variantNotSingleType
          | _ => .error .variantFirstNotStr
      | _ => .error .variantNotPair

/-- A successful `variantParts` yields a strictly lighter inner value
(the inner-signature string is nonempty). -/
theorem variantParts_pweight (arg : Value) (subtype : List Char) (vv : Value)
    (h : variantParts arg = .ok (subtype, vv)) : pweight vv < pweight arg := by
  unfold variantParts at h
  cases hseq : pySeqItems arg with
  | none => rw [hseq] at h; simp at h
  | some items =>
      rw [hseq] at h
      match items with
      | [] => simp at h
      | [x] => simp at h
      | x1 :: x2 :: x3 :: xs => simp at h
      | [vt, vv2] =>
          match vt with
          | .int n => simp at h
          | .bool b => simp at h
          | .dbl bits => simp at h
          | .bytes bs => simp at h
          | .tuple vs => simp at h
          | .list vs => simp at h
          | .dict es => simp at h
          | .str sub2 =>
              simp only at h
              by_cases hcs : _check_signature sub2 0 0 = false
              · rw [if_pos hcs] at h; simp at h
              · rw [if_neg hcs] at h
                cases hone : get_one_full_type sub2 with
                | none => rw [hone] at h; simp at h
                | some tr =>
                    rw [hone] at h
                    obtain ⟨t0, r0⟩ := tr
                    match r0 with
                    | _ :: _ => simp at h
                    | [] =>
                        simp only [Except.ok.injEq, Prod.mk.injEq] at h
                        obtain ⟨h1, h2⟩ := h
                        have hlt := variant_pweight_lt arg (.str sub2) vv2 sub2
                          hseq rfl (get_one_full_type_ne_nil sub2 t0 [] hone)
                        rw [h2] at hlt
                        exact hlt

/-- The closer skip at the bottom of the `message_append_args` loop:
`*(signature = end) = store;
if (*signature == ')' || *signature == '}') signature++;`. -/
def skipCloser (rest : List Char) : List Char :=
  if rest.headD nul = ')' ∨ rest.headD nul = '}' then rest.drop 1 else rest

theorem skipCloser_length (rest : List Char) :
    (skipCloser rest).length ≤ rest.length := by
  unfold skipCloser
  split
  · simp only [List.length_drop]
    omega
  · omega

/-- The byte fast path of the array case of `message_append_arg`
(`if (signature[1] == DBUS_TYPE_BYTE) ...`): requires a bytes argument
and appends its bytes as one fixed array. -/
def appendArrayBytes (esig : List Char) (arg : Value) :
    Except PyErr WireVal :=
  match arg with
  | .bytes bs => .ok (.array esig (bs.map WireVal.byte))
  | _ => .error .expectingBytes

mutual

/-- The struct case of `message_append_arg` (`_dbus.c:1411`): open a
struct container, require a sequence, encode it against the interior
signature (the C passes `signature+1`, which still ends with the
closer), close the container. -/
def appendStruct (interior : List Char) (arg : Value) :
    Except PyErr WireVal :=
  match hseq : pySeqItems arg with
  | none => .error .expectingSeqStruct
  | some vs => do
      let ws ← message_append_args interior vs
      pure (.struct ws)
termination_by (pweight arg, interior.length, 3, 0)
decreasing_by
  simp only [Prod.lex_def, lt_self_iff_false, false_or, true_and, and_true]
  have hle := pySeqItems_plweight arg vs hseq
  omega

/-- The dict-entry case of `message_append_arg` (`_dbus.c:1454`). -/
def appendDictEntryArg (interior : List Char) (arg : Value) :
    Except PyErr WireVal :=
  match hseq : pySeqItems arg with
  | none => .error .expectingSeqDictEntry
  | some vs => do
      let ws ← message_append_args interior vs
      pure (.dictEntry ws)
termination_by (pweight arg, interior.length, 3, 0)
decreasing_by
  simp only [Prod.lex_def, lt_self_iff_false, false_or, true_and, and_true]
  have hle := pySeqItems_plweight arg vs hseq
  omega

/-- The dict branch of the array case of `message_append_arg`
(`_dbus.c:1433`): require a dict, enumerate its items as two-tuples, and
encode each against the dict-entry element signature. -/
def appendArrayDict (esig : List Char) (arg : Value) :
    Except PyErr WireVal :=
  match arg with
  | .dict es => do
      let ws ← appendElems esig (pyDictItems es)
      pure (.array esig ws)
  | _ => .error .expectingDict
termination_by (pweight arg, esig.length, 3, 0)
decreasing_by
  simp only [Prod.lex_def, lt_self_iff_false, false_or, true_and, and_true]
  have hpe := pyDictItems_plweight es
  simp only [pweight]
  omega

/-- The general branch of the array case of `message_append_arg`
(`_dbus.c:1437`): require a sequence and encode each item against the
element signature. -/
def appendArrayList (esig : List Char) (arg : Value) :
    Except PyErr WireVal :=
  match hseq : pySeqItems arg with
  | none => .error .expectingSeqArray
  | some vs => do
      let ws ← appendElems esig vs
      pure (.array esig ws)
termination_by (pweight arg, esig.length, 3, 0)
decreasing_by
  simp only [Prod.lex_def, lt_self_iff_false, false_or, true_and, and_true]
  have hle := pySeqItems_plweight arg vs hseq
  omega

/-- The variant case of `message_append_arg` (`_dbus.c:1465`): check the
argument with `variantParts`, open a variant container tagged with the
inner signature, encode the inner value against it, close. -/
def appendVariant (arg : Value) : Except PyErr WireVal :=
  match hv : variantParts arg with
  | .error e => .error e
  | .ok p => do
      let w ← message_append_arg p.1 p.2
      pure (.variant p.1 w)
termination_by (pweight arg, 0, 3, 0)
decreasing_by
  simp only [Prod.lex_def, lt_self_iff_false, false_or, true_and, and_true]
  have hlt := variantParts_pweight arg p.1 p.2 hv
  omega

/-- Model of `message_append_arg` (`_dbus.c:1309`): encode one Python
value against one full type (the C caller passes the full type as a
temporarily NUL-terminated sub-string; here it is the exact sub-list).
The result is the wire value appended to the message iterator.  The
switch dispatches on the first character; the container cases are the
helper functions above, the basic-type cases and the switch default are
`message_append_basic`. -/
def message_append_arg (signature : List Char) (arg : Value) :
    Except PyErr WireVal :=
  if h1 : signature.headD nul = '(' then
    appendStruct (signature.drop 1) arg
  else if h2 : signature.headD nul = 'a' then
    if (signature.drop 1).headD nul = 'y' then
      appendArrayBytes (signature.drop 1) arg
    else if (signature.drop 1).headD nul = '{' then
      appendArrayDict (signature.drop 1) arg
    else
      appendArrayList (signature.drop 1) arg
  else if h3 : signature.headD nul = '{' then
    appendDictEntryArg (signature.drop 1) arg
  else if h4 : signature.headD nul = 'v' then
    appendVariant arg
  else message_append_basic (signature.headD nul) arg
termination_by (pweight arg, signature.length, 1, 0)
decreasing_by
  all_goals simp only [Prod.lex_def, List.length_drop, lt_self_iff_false,
    false_or, true_and, and_true]
  all_goals
    have hne : signature ≠ [] := by
      intro he
      subst he
      simp [List.headD, nul] at *
  all_goals have hpos : 0 < signature.length := List.length_pos.mpr hne
  all_goals omega

/-- Model of `message_append_args` (`_dbus.c:1510`): encode a value
sequence against the successive full types of `signature` in lock-step.
Arity errors: values exhausted with a type remaining is `too few`,
values remaining at the end of the signature is `too many`.  After each
element a single struct/dict-entry closer at the cursor is skipped
(`skipCloser`). -/
def message_append_args (signature : List Char) (args : List Value) :
    Except PyErr (List WireVal) :=
  if signature.isEmpty then
    if args.isEmpty then pure [] else .error .tooManyArguments
  else
    match hone : get_one_full_type signature with
    | none => .error .unbalancedFormat
    | some (t, rest) =>
        match args with
        | [] => .error .tooFewArguments
        | arg :: args2 => do
            let w ← message_append_arg t arg
            let ws ← message_append_args (skipCloser rest) args2
            pure (w :: ws)
termination_by (plweight args, signature.length, 2, args.length)
decreasing_by
  all_goals simp only [Prod.lex_def, plweight_cons, List.length_cons,
    lt_self_iff_false, false_or, true_and, and_true]
  all_goals obtain ⟨hs, hpos⟩ := get_one_full_type_spec signature t rest hone
  all_goals
    have hlen : t.length + rest.length = signature.length := by
      rw [hs]
      simp
  · omega
  · have hskip := skipCloser_length rest
    omega

/-- The element loop of the array branches of `message_append_arg`
(`for (i=0; i<PySequence_Size(Parray); i++) ...`). -/
def appendElems (elemSig : List Char) (items : List Value) :
    Except PyErr (List WireVal) :=
  match items with
  | [] => pure []
  | v :: vs => do
      let w ← message_append_arg elemSig v
      let ws ← appendElems elemSig vs
      pure (w :: ws)
termination_by (plweight items, elemSig.length, 2, items.length)
decreasing_by
  all_goals simp only [Prod.lex_def, plweight_cons, List.length_cons,
    lt_self_iff_false, false_or, true_and, and_true]
  all_goals omega

end


/-! ## The shape-matching relation

`Matches t v` renders the specification's data-model correspondence
(section 3): value tree `v` has exactly the shape of the one full type
`t`.  Scalars must be the canonical Python kind for the code (including
the encoder's range requirement for the fixed-width integers and the
grammar requirement for object-path and signature text), byte arrays are
bytes objects, dict-entry arrays are dicts with distinct keys, other
arrays are lists, structs and dict entries are tuples of exactly the
interior arity, and variants are pairs of a valid single-full-type
signature string and a matching inner value.  Unix-fd (`h`) has no value
shape: the codec supports it in neither direction. -/

@[simp] theorem vlsize_cons (v : Value) (vs : List Value) :
    vlsize (v :: vs) = 1 + vsize v + vlsize vs := by
  simp [vlsize]

@[simp] theorem velsize_cons (p : Value × Value) (es : List (Value × Value)) :
    velsize (p :: es) = 1 + vsize p.1 + vsize p.2 + velsize es := by
  simp [velsize]

mutual

inductive Matches : List Char → Value → Prop
  | byte (n : Int) : 0 ≤ n → n ≤ 255 → Matches ['y'] (.int n)
  | boolean (b : Bool) : Matches ['b'] (.bool b)
  | int16 (n : Int) : -32768 ≤ n → n ≤ 32767 → Matches ['n'] (.int n)
  | uint16 (n : Int) : 0 ≤ n → n ≤ 65535 → Matches ['q'] (.int n)
  | int32 (n : Int) : -2147483648 ≤ n → n ≤ 2147483647 →
      Matches ['i'] (.int n)
  | uint32 (n : Int) : 0 ≤ n → n ≤ 4294967295 → Matches ['u'] (.int n)
  | int64 (n : Int) : -9223372036854775808 ≤ n →
      n ≤ 9223372036854775807 → Matches ['x'] (.int n)
  | uint64 (n : Int) : 0 ≤ n → n ≤ 18446744073709551615 →
      Matches ['t'] (.int n)
  | double (bits : Nat) : Matches ['d'] (.dbl bits)
  | string (s : List Char) : Matches ['s'] (.str s)
  | objectPath (s : List Char) : _check_path s = true → Matches ['o'] (.str s)
  | signature (s : List Char) : _check_signature s 0 0 = true →
      Matches ['g'] (.str s)
  | byteArray (bs : List Nat) : Matches ['a', 'y'] (.bytes bs)
  | array (esig : List Char) (vs : List Value) :
      get_one_full_type esig = some (esig, []) → esig.headD nul ≠ 'y' →
      esig.headD nul ≠ '{' → MatchesList esig vs →
      Matches ('a' :: esig) (.list vs)
  | dict (inner tk tv : List Char) (es : List (Value × Value)) :
      get_one_full_type ('{' :: inner) = some ('{' :: inner, []) →
      split_signature inner.dropLast = some [tk, tv] →
      (es.map Prod.fst).Nodup → MatchesEntries tk tv es →
      Matches ('a' :: '{' :: inner) (.dict es)
  | struct (inner : List Char) (vs : List Value) :
      get_one_full_type ('(' :: inner) = some ('(' :: inner, []) →
      MatchesSeq inner.dropLast vs → Matches ('(' :: inner) (.tuple vs)
  | dictEntry (inner tk tv : List Char) (k kv : Value) :
      get_one_full_type ('{' :: inner) = some ('{' :: inner, []) →
      split_signature inner.dropLast = some [tk, tv] →
      Matches tk k → Matches tv kv →
      Matches ('{' :: inner) (.tuple [k, kv])
  | variant (subtype : List Char) (vv : Value) :
      get_one_full_type subtype = some (subtype, []) →
      _check_signature subtype 0 0 = true → Matches subtype vv →
      Matches ['v'] (.tuple [.str subtype, vv])

/-- Matching of a value sequence against the successive full types of a
signature fragment: exact arity, in order. -/
inductive MatchesSeq : List Char → List Value → Prop
  | nil : MatchesSeq [] []
  | cons (sig t rest : List Char) (v : Value) (vs : List Value) :
      get_one_full_type sig = some (t, rest) → Matches t v →
      MatchesSeq rest vs → MatchesSeq sig (v :: vs)

/-- Matching of every element of an array against the element type. -/
inductive MatchesList : List Char → List Value → Prop
  | nil (t : List Char) : MatchesList t []
  | cons (t : List Char) (v : Value) (vs : List Value) :
      Matches t v → MatchesList t vs → MatchesList t (v :: vs)

/-- Matching of every dictionary entry against the key and value
types. -/
inductive MatchesEntries : List Char → List Char → List (Value × Value) → Prop
  | nil (tk tv : List Char) : MatchesEntries tk tv []
  | cons (tk tv : List Char) (p : Value × Value)
      (es : List (Value × Value)) :
      Matches tk p.1 → Matches tv p.2 → MatchesEntries tk tv es →
      MatchesEntries tk tv (p :: es)

end

/-! ## Round-trip support: list facts and evaluation equations -/

theorem headD_append {α : Type} (l u : List α) (d : α) (h : l ≠ []) :
    (l ++ u).headD d = l.headD d := by
  cases l with
  | nil => exact absurd rfl h
  | cons x l2 => rfl

theorem dropLast_append_getLast? {α : Type} :
    ∀ (l : List α) (a : α), l.getLast? = some a → l.dropLast ++ [a] = l := by
  intro l
  induction l with
  | nil => intro a h; simp at h
  | cons x l2 ih =>
      intro a h
      cases l2 with
      | nil =>
          simp only [List.getLast?_singleton, Option.some.injEq] at h
          subst h
          rfl
      | cons y l3 =>
          rw [List.getLast?_cons_cons] at h
          have h2 := ih a h
          rw [show (x :: y :: l3).dropLast = x :: (y :: l3).dropLast from rfl]
          rw [List.cons_append, h2]

theorem getLast?_tail {α : Type} (x y : α) (l : List α) (a : α)
    (h : (x :: y :: l).getLast? = some a) : (y :: l).getLast? = some a := by
  rw [List.getLast?_cons_cons] at h
  exact h

/-- A full type that matches a value never starts with a bracket closer
(and is never empty): every `Matches` constructor fixes the head. -/
theorem matches_head {t : List Char} {v : Value} (h : Matches t v) :
    t ≠ [] ∧ t.headD nul ≠ ')' ∧ t.headD nul ≠ '}' := by
  cases h <;> exact ⟨by simp, by simp, by simp⟩

theorem readFixedBytes_map (bs : List Nat) :
    readFixedBytes (bs.map WireVal.byte) = some bs := by
  induction bs with
  | nil => rfl
  | cons b bs2 ih => simp [readFixedBytes, ih]

/-! Evaluation equations for the encoder: the dispatcher collapsed per
head character, the helpers unfolded at their argument shapes, and the
loop unfolded one step at a time. -/

theorem append_arg_struct_eq (inner : List Char) (v : Value) :
    message_append_arg ('(' :: inner) v = appendStruct inner v := by
  rw [message_append_arg]
  rw [dif_pos (by simp)]
  rfl

theorem append_arg_array_bytes_eq (esig : List Char) (v : Value)
    (hy : esig.headD nul = 'y') :
    message_append_arg ('a' :: esig) v = appendArrayBytes esig v := by
  rw [message_append_arg]
  rw [dif_neg (by simp), dif_pos (by simp)]
  rw [show List.drop 1 ('a' :: esig) = esig from rfl]
  rw [if_pos hy]

theorem append_arg_array_dict_eq (esig : List Char) (v : Value)
    (hb : esig.headD nul = '{') :
    message_append_arg ('a' :: esig) v = appendArrayDict esig v := by
  rw [message_append_arg]
  rw [dif_neg (by simp), dif_pos (by simp)]
  rw [show List.drop 1 ('a' :: esig) = esig from rfl]
  rw [if_neg (by rw [hb]; decide), if_pos hb]

theorem append_arg_array_list_eq (esig : List Char) (v : Value)
    (hy : esig.headD nul ≠ 'y') (hb : esig.headD nul ≠ '{') :
    message_append_arg ('a' :: esig) v = appendArrayList esig v := by
  rw [message_append_arg]
  rw [dif_neg (by simp), dif_pos (by simp)]
  rw [show List.drop 1 ('a' :: esig) = esig from rfl]
  rw [if_neg hy, if_neg hb]

theorem append_arg_dict_entry_eq (inner : List Char) (v : Value) :
    message_append_arg ('{' :: inner) v = appendDictEntryArg inner v := by
  rw [message_append_arg]
  rw [dif_neg (by simp), dif_neg (by simp), dif_pos (by simp)]
  rfl

theorem append_arg_variant_eq (v : Value) :
    message_append_arg ['v'] v = appendVariant v := by
  rw [message_append_arg]
  rw [dif_neg (by simp), dif_neg (by simp), dif_neg (by simp),
    dif_pos (by simp)]

theorem append_arg_basic_eq (c : Char) (v : Value) (h1 : c ≠ '(')
    (h2 : c ≠ 'a') (h3 : c ≠ '{') (h4 : c ≠ 'v') :
    message_append_arg [c] v = message_append_basic c v := by
  rw [message_append_arg]
  rw [dif_neg (show ¬([c].headD nul = '(') from fun hh => h1 hh),
    dif_neg (show ¬([c].headD nul = 'a') from fun hh => h2 hh),
    dif_neg (show ¬([c].headD nul = '{') from fun hh => h3 hh),
    dif_neg (show ¬([c].headD nul = 'v') from fun hh => h4 hh)]
  rfl

theorem appendStruct_tuple (inner : List Char) (vs : List Value) :
    appendStruct inner (.tuple vs) =
      (do let ws ← message_append_args inner vs
          pure (.struct ws)) := by
  rw [appendStruct]
  rfl

theorem appendDictEntryArg_tuple (inner : List Char) (vs : List Value) :
    appendDictEntryArg inner (.tuple vs) =
      (do let ws ← message_append_args inner vs
          pure (.dictEntry ws)) := by
  rw [appendDictEntryArg]
  rfl

theorem appendArrayDict_dict (esig : List Char) (es : List (Value × Value)) :
    appendArrayDict esig (.dict es) =
      (do let ws ← appendElems esig (pyDictItems es)
          pure (.array esig ws)) := by
  rw [appendArrayDict]

theorem appendArrayList_list (esig : List Char) (vs : List Value) :
    appendArrayList esig (.list vs) =
      (do let ws ← appendElems esig vs
          pure (.array esig ws)) := by
  rw [appendArrayList]
  rfl

theorem appendElems_nil (esig : List Char) : appendElems esig [] = .ok [] := by
  rw [appendElems]
  rfl

theorem appendElems_cons (esig : List Char) (v : Value) (vs : List Value) :
    appendElems esig (v :: vs) =
      (do let w ← message_append_arg esig v
          let ws ← appendElems esig vs
          pure (w :: ws)) := by
  rw [appendElems]

theorem variantParts_pair (subtype : List Char) (vv : Value)
    (hcs : _check_signature subtype 0 0 = true)
    (hone : get_one_full_type subtype = some (subtype, [])) :
    variantParts (.tuple [.str subtype, vv]) = .ok (subtype, vv) := by
  unfold variantParts
  simp [pySeqItems, hcs, hone]

theorem appendVariant_eq (arg : Value) (subtype : List Char) (vv : Value)
    (hvp : variantParts arg = .ok (subtype, vv)) :
    appendVariant arg =
      (do let w ← message_append_arg subtype vv
          pure (.variant subtype w)) := by
  rw [appendVariant]
  split
  · rename_i e heq
    rw [hvp] at heq
    simp at heq
  · rename_i p heq
    rw [hvp] at heq
    simp only [Except.ok.injEq] at heq
    subst heq
    rfl

theorem message_append_args_nil (args : List Value) :
    message_append_args [] args =
      if args.isEmpty then .ok [] else .error .tooManyArguments := by
  rw [message_append_args]
  simp only [List.isEmpty_eq_true, if_true, List.isEmpty_iff]
  split <;> rfl

theorem message_append_args_cons (signature t rest : List Char)
    (args : List Value) (hone : get_one_full_type signature = some (t, rest)) :
    message_append_args signature args =
      (match args with
       | [] => .error .tooFewArguments
       | arg :: args2 => do
          let w ← message_append_arg t arg
          let ws ← message_append_args (skipCloser rest) args2
          pure (w :: ws)) := by
  have hne : signature ≠ [] := by
    intro he
    subst he
    simp [get_one_full_type] at hone
  rw [message_append_args]
  rw [if_neg (by simp [List.isEmpty_iff, hne])]
  split
  · rename_i h2
    rw [hone] at h2
    simp at h2
  · rename_i t2 rest2 h2
    rw [hone] at h2
    simp only [Option.some.injEq, Prod.mk.injEq] at h2
    obtain ⟨h3, h4⟩ := h2
    subst h3
    subst h4
    rfl

theorem message_append_args_cons2 (signature t rest : List Char)
    (arg : Value) (args2 : List Value)
    (hone : get_one_full_type signature = some (t, rest)) :
    message_append_args signature (arg :: args2) =
      (do let w ← message_append_arg t arg
          let ws ← message_append_args (skipCloser rest) args2
          pure (w :: ws)) := by
  rw [message_append_args_cons signature t rest (arg :: args2) hone]

theorem message_append_args_noargs (signature t rest : List Char)
    (hone : get_one_full_type signature = some (t, rest)) :
    message_append_args signature [] = .error .tooFewArguments := by
  rw [message_append_args_cons signature t rest [] hone]

/-! ## Evaluation equations for the decoder -/

theorem read_byte_eq (m : Nat) :
    message_read_arg (.byte m) = some (.int (Int.ofNat m)) := by
  rw [message_read_arg]

theorem read_boolean_eq (b : Bool) :
    message_read_arg (.boolean b) = some (.bool b) := by
  rw [message_read_arg]

theorem read_int16_eq (m : Int) :
    message_read_arg (.int16 m) = some (.int m) := by
  rw [message_read_arg]

theorem read_uint16_eq (m : Int) :
    message_read_arg (.uint16 m) = some (.int m) := by
  rw [message_read_arg]

theorem read_int32_eq (m : Int) :
    message_read_arg (.int32 m) = some (.int m) := by
  rw [message_read_arg]

theorem read_uint32_eq (m : Int) :
    message_read_arg (.uint32 m) = some (.int m) := by
  rw [message_read_arg]

theorem read_int64_eq (m : Int) :
    message_read_arg (.int64 m) = some (.int m) := by
  rw [message_read_arg]

theorem read_uint64_eq (m : Int) :
    message_read_arg (.uint64 m) = some (.int m) := by
  rw [message_read_arg]

theorem read_double_eq (bits : Nat) :
    message_read_arg (.double bits) = some (.dbl bits) := by
  rw [message_read_arg]

theorem read_string_eq (s : List Char) :
    message_read_arg (.string s) = some (.str s) := by
  rw [message_read_arg]

theorem read_objectPath_eq (s : List Char) :
    message_read_arg (.objectPath s) = some (.str s) := by
  rw [message_read_arg]

theorem read_signature_eq (s : List Char) :
    message_read_arg (.signature s) = some (.str s) := by
  rw [message_read_arg]

theorem read_struct_eq (items : List WireVal) :
    message_read_arg (.struct items) =
      (match message_read_args items with
       | none => none
       | some vs => some (.tuple vs)) := by
  rw [message_read_arg]

theorem read_array_bytes_eq (esig : List Char) (items : List WireVal)
    (hy : esig.headD nul = 'y') :
    message_read_arg (.array esig items) =
      (match readFixedBytes items with
       | none => none
       | some bs => some (.bytes bs)) := by
  rw [message_read_arg]
  rw [if_pos hy]

theorem read_array_dict_eq (esig : List Char) (items : List WireVal)
    (hy : esig.headD nul ≠ 'y') (hb : esig.headD nul = '{') :
    message_read_arg (.array esig items) =
      (match readDictItems items [] with
       | none => none
       | some es => some (.dict es)) := by
  rw [message_read_arg]
  rw [if_neg hy, if_pos hb]

theorem read_array_list_eq (esig : List Char) (items : List WireVal)
    (hy : esig.headD nul ≠ 'y') (hb : esig.headD nul ≠ '{') :
    message_read_arg (.array esig items) =
      (match message_read_args items with
       | none => none
       | some vs => some (.list vs)) := by
  rw [message_read_arg]
  rw [if_neg hy, if_neg hb]

theorem read_dictEntry_eq (k v : WireVal) (rest : List WireVal) :
    message_read_arg (.dictEntry (k :: v :: rest)) =
      (match message_read_arg k with
       | none => none
       | some key =>
           match message_read_arg v with
           | none => none
           | some kval => some (.tuple [key, kval])) := by
  rw [message_read_arg]

theorem read_variant_eq (sig : List Char) (w : WireVal) :
    message_read_arg (.variant sig w) =
      (match message_read_arg w with
       | none => none
       | some v => some (.tuple [.str sig, v])) := by
  rw [message_read_arg]

theorem message_read_args_nil : message_read_args [] = some [] := by
  rw [message_read_args]

theorem message_read_args_cons (w : WireVal) (ws : List WireVal) :
    message_read_args (w :: ws) =
      (match message_read_arg w with
       | none => none
       | some v =>
           match message_read_args ws with
           | none => none
           | some vs => some (v :: vs)) := by
  rw [message_read_args]

theorem readDictItems_nil (acc : List (Value × Value)) :
    readDictItems [] acc = some acc := by
  rw [readDictItems]

theorem readDictItems_cons (w : WireVal) (ws : List WireVal)
    (acc : List (Value × Value)) :
    readDictItems (w :: ws) acc =
      (match message_read_arg w with
       | none => none
       | some item =>
           match item with
           | .tuple [k, v] => readDictItems ws (dictSetItem acc k v)
           | _ => none) := by
  rw [readDictItems]

/-! ## Sequential dictionary insertion -/

/-- Inserting a key no entry of the dict equals appends the new entry. -/
theorem dictSetItem_fresh (acc : List (Value × Value)) (k v : Value)
    (h : ∀ p ∈ acc, p.1 ≠ k) : dictSetItem acc k v = acc ++ [(k, v)] := by
  unfold dictSetItem
  rw [if_neg]
  intro hc
  simp only [List.any_eq_true] at hc
  obtain ⟨p, hp, hpk⟩ := hc
  exact h p hp ((veq_iff p.1 k).mp hpk)

/-- Sequentially inserting entries with pairwise distinct keys (also
distinct from the accumulator's) just appends them in order. -/
theorem foldl_dictSetItem (es : List (Value × Value)) :
    ∀ acc : List (Value × Value), ((acc ++ es).map Prod.fst).Nodup →
      es.foldl (fun a p => dictSetItem a p.1 p.2) acc = acc ++ es := by
  induction es with
  | nil => intro acc h; simp
  | cons p es2 ih =>
      intro acc h
      have hfresh : ∀ q ∈ acc, q.1 ≠ p.1 := by
        intro q hq hqp
        rw [List.map_append] at h
        obtain ⟨h1, h2, hdisj⟩ := List.nodup_append.mp h
        apply hdisj (List.mem_map_of_mem Prod.fst hq)
        rw [hqp]
        simp
      simp only [List.foldl_cons]
      rw [dictSetItem_fresh acc p.1 p.2 hfresh]
      have heq : (acc ++ [(p.1, p.2)]) ++ es2 = acc ++ p :: es2 := by simp
      rw [ih (acc ++ [(p.1, p.2)]) (by rw [heq]; exact h)]
      rw [heq]

/-! ## Decomposing split and bracketed full types -/

theorem split_signature_two (s tk tv : List Char)
    (h : split_signature s = some [tk, tv]) :
    get_one_full_type s = some (tk, tv) ∧
      get_one_full_type tv = some (tv, []) := by
  rw [split_signature] at h
  by_cases hs : s.isEmpty
  · rw [if_pos hs] at h
    simp at h
  · rw [if_neg hs] at h
    split at h
    · simp at h
    · rename_i t1 r1 heq1
      simp only [Option.map_eq_some'] at h
      obtain ⟨ts, hts, hcons⟩ := h
      obtain ⟨htk, hts2⟩ := List.cons_eq_cons.mp hcons
      subst htk
      subst hts2
      rw [split_signature] at hts
      by_cases hr1 : r1.isEmpty
      · rw [if_pos hr1] at hts
        simp at hts
      · rw [if_neg hr1] at hts
        split at hts
        · simp at hts
        · rename_i t2 r2 heq2
          simp only [Option.map_eq_some'] at hts
          obtain ⟨ts2, hts3, hcons2⟩ := hts
          obtain ⟨htv, hts4⟩ := List.cons_eq_cons.mp hcons2
          subst htv
          subst hts4
          have hr2nil : r2 = [] := by
            rw [split_signature] at hts3
            by_cases hr2 : r2.isEmpty
            · exact List.isEmpty_iff.mp hr2
            · rw [if_neg hr2] at hts3
              split at hts3
              · simp at hts3
              · simp only [Option.map_eq_some'] at hts3
                obtain ⟨ts3, _, hcons3⟩ := hts3
                simp at hcons3
          subst hr2nil
          obtain ⟨hsplit1, _⟩ := get_one_full_type_spec r1 t2 [] heq2
          rw [List.append_nil] at hsplit1
          subst hsplit1
          exact ⟨heq1, heq2⟩

/-- The interior of a one-full-type bracketed signature ends with the
matching closer. -/
theorem closer_decomp (c cl : Char) (inner : List Char)
    (hget : get_one_full_type (c :: inner) = some (c :: inner, []))
    (hop : (c = '(' ∧ cl = ')') ∨ (c = '{' ∧ cl = '}')) :
    inner.dropLast ++ [cl] = inner := by
  have hcl := get_one_full_type_closer (c :: inner) (c :: inner) [] c cl hget
    hop (by simp)
  have hinner_ne : inner ≠ [] := by
    intro he
    subst he
    simp only [List.getLast?_singleton, Option.some.injEq] at hcl
    rcases hop with ⟨h1, h2⟩ | ⟨h1, h2⟩ <;> subst h1 <;> subst h2 <;>
      exact absurd hcl (by decide)
  have hcl2 : inner.getLast? = some cl := by
    cases inner with
    | nil => exact absurd rfl hinner_ne
    | cons y l => exact getLast?_tail c y l cl hcl
  exact dropLast_append_getLast? inner cl hcl2

/-! ## Round trips for the basic type codes -/

theorem roundtrip_y (n : Int) (h0 : 0 ≤ n) (h1 : n ≤ 255)
    (w : WireVal) (hw : message_append_arg ['y'] (Value.int n) = .ok w) :
    message_read_arg w = some (Value.int n) := by
  rw [append_arg_basic_eq 'y' (Value.int n) (by decide) (by decide)
    (by decide) (by decide)] at hw
  have hcn : check_number (Value.int n) 'y' = .ok () := by
    rw [show check_number (Value.int n) 'y' =
        (if n < 0 ∨ 255 < n then .error (.outOfRange 'y') else .ok ())
        from rfl]
    rw [if_neg (by omega)]
  rw [show message_append_basic 'y' (Value.int n) =
      (do let _ ← check_number (Value.int n) 'y'
          pure (.byte (wrapU 8 (pyAsLong (Value.int n))).toNat)) from rfl, hcn] at hw
  obtain rfl : w = (.byte (wrapU 8 n).toNat) := (Except.ok.inj hw).symm
  have harith : Int.ofNat ((wrapU 8 n).toNat) = n := by
    have h2 : wrapU 8 n = n := by
      show n % 256 = n
      omega
    rw [h2]
    exact_mod_cast Int.toNat_of_nonneg h0
  rw [read_byte_eq, harith]

theorem roundtrip_q (n : Int) (h0 : 0 ≤ n) (h1 : n ≤ 65535)
    (w : WireVal) (hw : message_append_arg ['q'] (Value.int n) = .ok w) :
    message_read_arg w = some (Value.int n) := by
  rw [append_arg_basic_eq 'q' (Value.int n) (by decide) (by decide)
    (by decide) (by decide)] at hw
  have hcn : check_number (Value.int n) 'q' = .ok () := by
    rw [show check_number (Value.int n) 'q' =
        (if n < 0 ∨ 65535 < n then .error (.outOfRange 'q') else .ok ())
        from rfl]
    rw [if_neg (by omega)]
  rw [show message_append_basic 'q' (Value.int n) =
      (do let _ ← check_number (Value.int n) 'q'
          pure (.uint16 (wrapU 16 (pyAsLong (Value.int n))))) from rfl, hcn] at hw
  obtain rfl : w = (.uint16 (wrapU 16 n)) := (Except.ok.inj hw).symm
  have harith : wrapU 16 n = n := by
    show n % 65536 = n
    omega
  rw [read_uint16_eq, harith]

theorem roundtrip_u (n : Int) (h0 : 0 ≤ n) (h1 : n ≤ 4294967295)
    (w : WireVal) (hw : message_append_arg ['u'] (Value.int n) = .ok w) :
    message_read_arg w = some (Value.int n) := by
  rw [append_arg_basic_eq 'u' (Value.int n) (by decide) (by decide)
    (by decide) (by decide)] at hw
  have hcn : check_number (Value.int n) 'u' = .ok () := by
    rw [show check_number (Value.int n) 'u' =
        (if n < 0 ∨ 4294967295 < n then .error (.outOfRange 'u') else .ok ())
        from rfl]
    rw [if_neg (by omega)]
  rw [show message_append_basic 'u' (Value.int n) =
      (do let _ ← check_number (Value.int n) 'u'
          pure (.uint32 (wrapU 32 (pyAsLong (Value.int n))))) from rfl, hcn] at hw
  obtain rfl : w = (.uint32 (wrapU 32 n)) := (Except.ok.inj hw).symm
  have harith : wrapU 32 n = n := by
    show n % 4294967296 = n
    omega
  rw [read_uint32_eq, harith]

theorem roundtrip_t (n : Int) (h0 : 0 ≤ n) (h1 : n ≤ 18446744073709551615)
    (w : WireVal) (hw : message_append_arg ['t'] (Value.int n) = .ok w) :
    message_read_arg w = some (Value.int n) := by
  rw [append_arg_basic_eq 't' (Value.int n) (by decide) (by decide)
    (by decide) (by decide)] at hw
  have hcn : check_number (Value.int n) 't' = .ok () := by
    rw [show check_number (Value.int n) 't' =
        (if n < 0 ∨ 18446744073709551615 < n then .error (.outOfRange 't') else .ok ())
        from rfl]
    rw [if_neg (by omega)]
  rw [show message_append_basic 't' (Value.int n) =
      (do let _ ← check_number (Value.int n) 't'
          pure (.uint64 (wrapU 64 (pyAsLong (Value.int n))))) from rfl, hcn] at hw
  obtain rfl : w = (.uint64 (wrapU 64 n)) := (Except.ok.inj hw).symm
  have harith : wrapU 64 n = n := by
    show n % 18446744073709551616 = n
    omega
  rw [read_uint64_eq, harith]

theorem roundtrip_n (n : Int) (h0 : -32768 ≤ n) (h1 : n ≤ 32767)
    (w : WireVal) (hw : message_append_arg ['n'] (Value.int n) = .ok w) :
    message_read_arg w = some (Value.int n) := by
  rw [append_arg_basic_eq 'n' (Value.int n) (by decide) (by decide)
    (by decide) (by decide)] at hw
  have hcn : check_number (Value.int n) 'n' = .ok () := by
    rw [show check_number (Value.int n) 'n' =
        (if n < -32768 ∨ 32767 < n then .error (.outOfRange 'n')
         else .ok ()) from rfl]
    rw [if_neg (by omega)]
  rw [show message_append_basic 'n' (Value.int n) =
      (do let _ ← check_number (Value.int n) 'n'
          pure (.int16 (wrapS 16 (pyAsLong (Value.int n))))) from rfl,
    hcn] at hw
  obtain rfl : w = .int16 (wrapS 16 n) := (Except.ok.inj hw).symm
  have harith : wrapS 16 n = n := by
    show (n + 32768) % 65536 - 32768 = n
    omega
  rw [read_int16_eq, harith]

theorem roundtrip_i (n : Int) (h0 : -2147483648 ≤ n) (h1 : n ≤ 2147483647)
    (w : WireVal) (hw : message_append_arg ['i'] (Value.int n) = .ok w) :
    message_read_arg w = some (Value.int n) := by
  rw [append_arg_basic_eq 'i' (Value.int n) (by decide) (by decide)
    (by decide) (by decide)] at hw
  have hcn : check_number (Value.int n) 'i' = .ok () := by
    rw [show check_number (Value.int n) 'i' =
        (if n < -2147483648 ∨ 2147483647 < n then .error (.outOfRange 'i')
         else .ok ()) from rfl]
    rw [if_neg (by omega)]
  rw [show message_append_basic 'i' (Value.int n) =
      (do let _ ← check_number (Value.int n) 'i'
          pure (.int32 (wrapS 32 (pyAsLong (Value.int n))))) from rfl,
    hcn] at hw
  obtain rfl : w = .int32 (wrapS 32 n) := (Except.ok.inj hw).symm
  have harith : wrapS 32 n = n := by
    show (n + 2147483648) % 4294967296 - 2147483648 = n
    omega
  rw [read_int32_eq, harith]

theorem roundtrip_x (n : Int) (h0 : -9223372036854775808 ≤ n) (h1 : n ≤ 9223372036854775807)
    (w : WireVal) (hw : message_append_arg ['x'] (Value.int n) = .ok w) :
    message_read_arg w = some (Value.int n) := by
  rw [append_arg_basic_eq 'x' (Value.int n) (by decide) (by decide)
    (by decide) (by decide)] at hw
  have hcn : check_number (Value.int n) 'x' = .ok () := by
    rw [show check_number (Value.int n) 'x' =
        (if n < -9223372036854775808 ∨ 9223372036854775807 < n then .error (.outOfRange 'x')
         else .ok ()) from rfl]
    rw [if_neg (by omega)]
  rw [show message_append_basic 'x' (Value.int n) =
      (do let _ ← check_number (Value.int n) 'x'
          pure (.int64 (wrapS 64 (pyAsLong (Value.int n))))) from rfl,
    hcn] at hw
  obtain rfl : w = .int64 (wrapS 64 n) := (Except.ok.inj hw).symm
  have harith : wrapS 64 n = n := by
    show (n + 9223372036854775808) % 18446744073709551616 - 9223372036854775808 = n
    omega
  rw [read_int64_eq, harith]

theorem roundtrip_b (b : Bool) (w : WireVal)
    (hw : message_append_arg ['b'] (Value.bool b) = .ok w) :
    message_read_arg w = some (Value.bool b) := by
  rw [append_arg_basic_eq 'b' (Value.bool b) (by decide) (by decide)
    (by decide) (by decide)] at hw
  obtain rfl : w = .boolean b := (Except.ok.inj hw).symm
  rw [read_boolean_eq]

theorem roundtrip_d (bits : Nat) (w : WireVal)
    (hw : message_append_arg ['d'] (Value.dbl bits) = .ok w) :
    message_read_arg w = some (Value.dbl bits) := by
  rw [append_arg_basic_eq 'd' (Value.dbl bits) (by decide) (by decide)
    (by decide) (by decide)] at hw
  obtain rfl : w = .double bits := (Except.ok.inj hw).symm
  rw [read_double_eq]

theorem roundtrip_s (s : List Char) (w : WireVal)
    (hw : message_append_arg ['s'] (Value.str s) = .ok w) :
    message_read_arg w = some (Value.str s) := by
  rw [append_arg_basic_eq 's' (Value.str s) (by decide) (by decide)
    (by decide) (by decide)] at hw
  obtain rfl : w = .string s := (Except.ok.inj hw).symm
  rw [read_string_eq]

theorem roundtrip_o (s : List Char) (hp : _check_path s = true) (w : WireVal)
    (hw : message_append_arg ['o'] (Value.str s) = .ok w) :
    message_read_arg w = some (Value.str s) := by
  rw [append_arg_basic_eq 'o' (Value.str s) (by decide) (by decide)
    (by decide) (by decide)] at hw
  rw [show message_append_basic 'o' (Value.str s) =
      (if _check_path s = true then .ok (.objectPath s)
       else .error .invalidPathArg) from rfl] at hw
  rw [if_pos hp] at hw
  obtain rfl : w = .objectPath s := (Except.ok.inj hw).symm
  rw [read_objectPath_eq]

theorem roundtrip_g (s : List Char) (hg : _check_signature s 0 0 = true)
    (w : WireVal)
    (hw : message_append_arg ['g'] (Value.str s) = .ok w) :
    message_read_arg w = some (Value.str s) := by
  rw [append_arg_basic_eq 'g' (Value.str s) (by decide) (by decide)
    (by decide) (by decide)] at hw
  rw [show message_append_basic 'g' (Value.str s) =
      (if _check_signature s 0 0 = true then .ok (.signature s)
       else .error .invalidSignatureArg) from rfl] at hw
  rw [if_pos hg] at hw
  obtain rfl : w = .signature s := (Except.ok.inj hw).symm
  rw [read_signature_eq]

theorem roundtrip_ay (bs : List Nat) (w : WireVal)
    (hw : message_append_arg ['a', 'y'] (Value.bytes bs) = .ok w) :
    message_read_arg w = some (Value.bytes bs) := by
  rw [show (['a', 'y'] : List Char) = 'a' :: ['y'] from rfl] at hw
  rw [append_arg_array_bytes_eq ['y'] (Value.bytes bs) rfl] at hw
  rw [show appendArrayBytes ['y'] (Value.bytes bs) =
      .ok (.array ['y'] (bs.map WireVal.byte)) from rfl] at hw
  obtain rfl : w = .array ['y'] (bs.map WireVal.byte) :=
    (Except.ok.inj hw).symm
  rw [read_array_bytes_eq ['y'] (bs.map WireVal.byte) rfl]
  rw [readFixedBytes_map]

/-- Evaluating `message_append_args` on the interior of a dict entry
(`tk ++ tv ++ \'}\'` as passed by the C, with the closer skipped after the
value type). -/
theorem append_entry_eval (inner tk tv : List Char) (k kv : Value)
    (h1 : get_one_full_type inner = some (tk, tv ++ ['}']))
    (h2 : get_one_full_type (tv ++ ['}']) = some (tv, ['}']))
    (htvne : tv ≠ []) (htv1 : tv.headD nul ≠ ')') (htv2 : tv.headD nul ≠ '}') :
    message_append_args inner [k, kv] =
      (do let w1 ← message_append_arg tk k
          let w2 ← message_append_arg tv kv
          pure [w1, w2]) := by
  have hskip : skipCloser (tv ++ ['}']) = tv ++ ['}'] := by
    unfold skipCloser
    rw [if_neg]
    rw [headD_append tv ['}'] nul htvne]
    push_neg
    exact ⟨htv1, htv2⟩
  have h00 : message_append_args (skipCloser ['}']) ([] : List Value) =
      .ok [] := by
    rw [show skipCloser ['}'] = ([] : List Char) from rfl,
      message_append_args_nil]
    rfl
  rw [message_append_args_cons inner tk (tv ++ ['}']) [k, kv] h1]
  show (do let w1 ← message_append_arg tk k
           let ws ← message_append_args (skipCloser (tv ++ ['}'])) [kv]
           pure (w1 :: ws)) = _
  rw [hskip]
  rw [message_append_args_cons (tv ++ ['}']) tv ['}'] [kv] h2]
  show (do let w1 ← message_append_arg tk k
           let ws ← (do
             let w2 ← message_append_arg tv kv
             let ws2 ← message_append_args (skipCloser ['}']) []
             pure (w2 :: ws2))
           pure (w1 :: ws)) = _
  rw [h00]
  cases hX : message_append_arg tk k with
  | error e => rfl
  | ok w1 =>
      cases hY : message_append_arg tv kv with
      | error e => rfl
      | ok w2 => rfl

/-! ## The round trip: decode after a successful encode -/

/-- All four round-trip statements, by induction on a size bound (the
mutual structural recursion of encoder and shape relation, unrolled
against an explicit fuel). -/
theorem roundtrip_all (fuel : Nat) :
    (∀ (t : List Char) (v : Value), Matches t v → vsize v < fuel →
      ∀ w : WireVal, message_append_arg t v = .ok w →
        message_read_arg w = some v) ∧
    (∀ (sigM : List Char) (vs : List Value), MatchesSeq sigM vs →
      vlsize vs < fuel →
      ∀ cs : List Char, (cs = [] ∨ cs = [')'] ∨ cs = ['}']) →
        ∀ ws : List WireVal, message_append_args (sigM ++ cs) vs = .ok ws →
          message_read_args ws = some vs) ∧
    (∀ (esig : List Char) (vs : List Value), MatchesList esig vs →
      vlsize vs < fuel →
      ∀ ws : List WireVal, appendElems esig vs = .ok ws →
        message_read_args ws = some vs) ∧
    (∀ (inner tk tv : List Char) (es : List (Value × Value)),
      MatchesEntries tk tv es → velsize es < fuel →
      get_one_full_type inner = some (tk, tv ++ ['}']) →
      get_one_full_type (tv ++ ['}']) = some (tv, ['}']) →
      ∀ (ws : List WireVal) (acc : List (Value × Value)),
        appendElems ('{' :: inner) (pyDictItems es) = .ok ws →
        readDictItems ws acc =
          some (es.foldl (fun a p => dictSetItem a p.1 p.2) acc)) := by
  induction fuel with
  | zero =>
      refine ⟨?_, ?_, ?_, ?_⟩
      · intro t v _ hsz
        omega
      · intro sigM vs _ hsz
        omega
      · intro esig vs _ hsz
        omega
      · intro inner tk tv es _ hsz
        omega
  | succ fuel ih =>
      obtain ⟨ih1, ih2, ih3, ih4⟩ := ih
      refine ⟨?_, ?_, ?_, ?_⟩
      · -- one argument against one full type
        intro t v h hsz w hw
        cases h with
        | byte n h0 h1 => exact roundtrip_y n h0 h1 w hw
        | boolean b => exact roundtrip_b b w hw
        | int16 n h0 h1 => exact roundtrip_n n h0 h1 w hw
        | uint16 n h0 h1 => exact roundtrip_q n h0 h1 w hw
        | int32 n h0 h1 => exact roundtrip_i n h0 h1 w hw
        | uint32 n h0 h1 => exact roundtrip_u n h0 h1 w hw
        | int64 n h0 h1 => exact roundtrip_x n h0 h1 w hw
        | uint64 n h0 h1 => exact roundtrip_t n h0 h1 w hw
        | double bits => exact roundtrip_d bits w hw
        | string s => exact roundtrip_s s w hw
        | objectPath s hp => exact roundtrip_o s hp w hw
        | signature s hg => exact roundtrip_g s hg w hw
        | byteArray bs => exact roundtrip_ay bs w hw
        | array esig vs hget hy hb hlist =>
            rw [append_arg_array_list_eq esig (Value.list vs) hy hb] at hw
            rw [appendArrayList_list] at hw
            cases hres : appendElems esig vs with
            | error e => rw [hres] at hw; exact Except.noConfusion hw
            | ok ws2 =>
                rw [hres] at hw
                obtain rfl : w = .array esig ws2 := (Except.ok.inj hw).symm
                rw [read_array_list_eq esig ws2 hy hb]
                rw [ih3 esig vs hlist (by simp [vsize] at hsz; omega) ws2 hres]
        | dict inner tk tv es hget hsplit hnodup hments =>
            obtain ⟨hk1, hk2⟩ := split_signature_two inner.dropLast tk tv hsplit
            have hdec : inner.dropLast ++ ['}'] = inner :=
              closer_decomp '{' '}' inner hget (Or.inr ⟨rfl, rfl⟩)
            have h1 : get_one_full_type inner = some (tk, tv ++ ['}']) := by
              rw [← hdec]
              exact get_one_full_type_append inner.dropLast tk tv ['}'] hk1
            have h2 : get_one_full_type (tv ++ ['}']) = some (tv, ['}']) := by
              simpa using get_one_full_type_append tv tv [] ['}'] hk2
            rw [append_arg_array_dict_eq ('{' :: inner) (Value.dict es) rfl]
              at hw
            rw [appendArrayDict_dict] at hw
            cases hres : appendElems ('{' :: inner) (pyDictItems es) with
            | error e => rw [hres] at hw; exact Except.noConfusion hw
            | ok ws2 =>
                rw [hres] at hw
                obtain rfl : w = .array ('{' :: inner) ws2 :=
                  (Except.ok.inj hw).symm
                rw [read_array_dict_eq ('{' :: inner) ws2 (by simp) rfl]
                rw [ih4 inner tk tv es hments
                  (by simp [vsize] at hsz; omega) h1 h2 ws2 [] hres]
                rw [foldl_dictSetItem es [] (by simpa using hnodup)]
                simp
        | struct inner vs hget hseq =>
            have hdec : inner.dropLast ++ [')'] = inner :=
              closer_decomp '(' ')' inner hget (Or.inl ⟨rfl, rfl⟩)
            rw [append_arg_struct_eq inner (Value.tuple vs)] at hw
            rw [appendStruct_tuple] at hw
            cases hres : message_append_args inner vs with
            | error e => rw [hres] at hw; exact Except.noConfusion hw
            | ok ws2 =>
                rw [hres] at hw
                obtain rfl : w = .struct ws2 := (Except.ok.inj hw).symm
                rw [read_struct_eq]
                have hread := ih2 inner.dropLast vs hseq
                  (by simp [vsize] at hsz; omega) [')']
                  (Or.inr (Or.inl rfl)) ws2 (by rw [hdec]; exact hres)
                rw [hread]
        | dictEntry inner tk tv k kv hget hsplit hk hkv =>
            obtain ⟨hk1, hk2⟩ := split_signature_two inner.dropLast tk tv hsplit
            have hdec : inner.dropLast ++ ['}'] = inner :=
              closer_decomp '{' '}' inner hget (Or.inr ⟨rfl, rfl⟩)
            have h1 : get_one_full_type inner = some (tk, tv ++ ['}']) := by
              rw [← hdec]
              exact get_one_full_type_append inner.dropLast tk tv ['}'] hk1
            have h2 : get_one_full_type (tv ++ ['}']) = some (tv, ['}']) := by
              simpa using get_one_full_type_append tv tv [] ['}'] hk2
            obtain ⟨htvne, htv1, htv2⟩ := matches_head hkv
            rw [append_arg_dict_entry_eq inner (Value.tuple [k, kv])] at hw
            rw [appendDictEntryArg_tuple] at hw
            rw [append_entry_eval inner tk tv k kv h1 h2 htvne htv1 htv2] at hw
            cases hX : message_append_arg tk k with
            | error e => rw [hX] at hw; exact Except.noConfusion hw
            | ok w1 =>
                rw [hX] at hw
                cases hY : message_append_arg tv kv with
                | error e => rw [hY] at hw; exact Except.noConfusion hw
                | ok w2 =>
                    rw [hY] at hw
                    obtain rfl : w = .dictEntry [w1, w2] :=
                      (Except.ok.inj hw).symm
                    rw [read_dictEntry_eq w1 w2 []]
                    rw [ih1 tk k hk
                      (by simp [vsize, vlsize] at hsz; omega) w1 hX]
                    rw [ih1 tv kv hkv
                      (by simp [vsize, vlsize] at hsz; omega) w2 hY]
        | variant subtype vv hget hcs hmv =>
            have hvp := variantParts_pair subtype vv hcs hget
            rw [append_arg_variant_eq (Value.tuple [.str subtype, vv])] at hw
            rw [appendVariant_eq (Value.tuple [.str subtype, vv]) subtype vv
              hvp] at hw
            cases hX : message_append_arg subtype vv with
            | error e => rw [hX] at hw; exact Except.noConfusion hw
            | ok w1 =>
                rw [hX] at hw
                obtain rfl : w = .variant subtype w1 := (Except.ok.inj hw).symm
                rw [read_variant_eq]
                rw [ih1 subtype vv hmv
                  (by simp [vsize, vlsize] at hsz; omega) w1 hX]
      · -- a value sequence against a signature fragment
        intro sigM vs h hsz cs hcs ws hw
        cases h with
        | nil =>
            rw [List.nil_append] at hw
            rcases hcs with h1 | h1 | h1 <;> subst h1
            · rw [message_append_args_nil] at hw
              obtain rfl : ws = [] := (Except.ok.inj hw).symm
              exact message_read_args_nil
            · rw [message_append_args_noargs [')'] [')'] [] rfl] at hw
              exact Except.noConfusion hw
            · rw [message_append_args_noargs ['}'] ['}'] [] rfl] at hw
              exact Except.noConfusion hw
        | cons _ t rest v vs2 hone hm hrest =>
            have honeA : get_one_full_type (sigM ++ cs) =
                some (t, rest ++ cs) :=
              get_one_full_type_append sigM t rest cs hone
            rw [message_append_args_cons2 (sigM ++ cs) t (rest ++ cs)
              v vs2 honeA] at hw
            cases hX : message_append_arg t v with
            | error e => rw [hX] at hw; exact Except.noConfusion hw
            | ok w1 =>
                rw [hX] at hw
                have hr1 := ih1 t v hm (by simp at hsz; omega) w1 hX
                cases hrestn : rest with
                | nil =>
                    subst hrestn
                    cases hrest with
                    | nil =>
                        have hsk : skipCloser ([] ++ cs) = [] := by
                          rcases hcs with h1 | h1 | h1 <;> subst h1 <;> rfl
                        rw [hsk, message_append_args_nil] at hw
                        rw [show (if ([] : List Value).isEmpty then
                            (Except.ok [] : Except PyErr (List WireVal))
                            else .error .tooManyArguments) = .ok []
                            from rfl] at hw
                        obtain rfl : ws = [w1] := (Except.ok.inj hw).symm
                        rw [message_read_args_cons, hr1,
                          message_read_args_nil]
                    | cons _ t2 rest3 v2 vs3 hone2 hm2 hrest3 =>
                        simp [get_one_full_type] at hone2
                | cons r0 rest2 =>
                    subst hrestn
                    cases hrest with
                    | cons _ t2 rest3 v2 vs3 hone2 hm2 hrest3 =>
                        obtain ⟨hs2, hpos2⟩ :=
                          get_one_full_type_spec (r0 :: rest2) t2 rest3 hone2
                        obtain ⟨ht2ne, ht2a, ht2b⟩ := matches_head hm2
                        have hr0 : ¬(r0 = ')' ∨ r0 = '}') := by
                          cases t2 with
                          | nil => exact absurd rfl ht2ne
                          | cons c2 t3 =>
                              rw [List.cons_append] at hs2
                              obtain ⟨hc, _⟩ := List.cons_eq_cons.mp hs2
                              subst hc
                              push_neg
                              constructor
                              · intro he
                                exact ht2a (by rw [List.headD_cons]; exact he)
                              · intro he
                                exact ht2b (by rw [List.headD_cons]; exact he)
                        have hsk : skipCloser ((r0 :: rest2) ++ cs) =
                            (r0 :: rest2) ++ cs := by
                          unfold skipCloser
                          rw [if_neg]
                          rw [List.cons_append, List.headD_cons]
                          exact hr0
                        rw [hsk] at hw
                        cases hres : message_append_args ((r0 :: rest2) ++ cs)
                            (v2 :: vs3) with
                        | error e =>
                            rw [hres] at hw
                            exact Except.noConfusion hw
                        | ok ws2 =>
                            rw [hres] at hw
                            obtain rfl : ws = w1 :: ws2 :=
                              (Except.ok.inj hw).symm
                            have hrec := ih2 (r0 :: rest2) (v2 :: vs3)
                              (MatchesSeq.cons (r0 :: rest2) t2 rest3 v2 vs3
                                hone2 hm2 hrest3)
                              (by simp at hsz ⊢; omega) cs hcs ws2 hres
                            rw [message_read_args_cons, hr1, hrec]
      · -- the element loop of an array
        intro esig vs h hsz ws hw
        cases h with
        | nil =>
            rw [appendElems_nil] at hw
            obtain rfl : ws = [] := (Except.ok.inj hw).symm
            exact message_read_args_nil
        | cons _ v vs2 hv hrest =>
            rw [appendElems_cons] at hw
            cases hX : message_append_arg esig v with
            | error e => rw [hX] at hw; exact Except.noConfusion hw
            | ok w1 =>
                rw [hX] at hw
                cases hres : appendElems esig vs2 with
                | error e => rw [hres] at hw; exact Except.noConfusion hw
                | ok ws2 =>
                    rw [hres] at hw
                    obtain rfl : ws = w1 :: ws2 := (Except.ok.inj hw).symm
                    rw [message_read_args_cons,
                      ih1 esig v hv (by simp at hsz; omega) w1 hX,
                      ih3 esig vs2 hrest (by simp at hsz; omega) ws2 hres]
      · -- the dict-building loop
        intro inner tk tv es h hsz h1 h2 ws acc hw
        cases h with
        | nil =>
            rw [show pyDictItems [] = ([] : List Value) from rfl,
              appendElems_nil] at hw
            obtain rfl : ws = [] := (Except.ok.inj hw).symm
            rw [readDictItems_nil]
            rfl
        | cons _ _ p es2 hkm hvm hrest =>
            obtain ⟨htvne, htv1, htv2⟩ := matches_head hvm
            rw [show pyDictItems (p :: es2) =
                Value.tuple [p.1, p.2] :: pyDictItems es2 from rfl] at hw
            rw [appendElems_cons] at hw
            rw [append_arg_dict_entry_eq inner (Value.tuple [p.1, p.2])] at hw
            rw [appendDictEntryArg_tuple] at hw
            rw [append_entry_eval inner tk tv p.1 p.2 h1 h2 htvne htv1 htv2]
              at hw
            cases hX : message_append_arg tk p.1 with
            | error e => rw [hX] at hw; exact Except.noConfusion hw
            | ok w1 =>
                rw [hX] at hw
                cases hY : message_append_arg tv p.2 with
                | error e => rw [hY] at hw; exact Except.noConfusion hw
                | ok w2 =>
                    rw [hY] at hw
                    cases hres : appendElems ('{' :: inner)
                        (pyDictItems es2) with
                    | error e =>
                        rw [hres] at hw
                        exact Except.noConfusion hw
                    | ok ws2 =>
                        rw [hres] at hw
                        obtain rfl : ws = .dictEntry [w1, w2] :: ws2 :=
                          (Except.ok.inj hw).symm
                        rw [readDictItems_cons]
                        rw [read_dictEntry_eq w1 w2 []]
                        rw [ih1 tk p.1 hkm (by simp at hsz; omega) w1 hX,
                          ih1 tv p.2 hvm (by simp at hsz; omega) w2 hY]
                        show readDictItems ws2 (dictSetItem acc p.1 p.2) = _
                        rw [ih4 inner tk tv es2 hrest
                          (by simp at hsz; omega) h1 h2 ws2
                          (dictSetItem acc p.1 p.2) hres]
                        rfl

/-- One argument decodes back to the value it was encoded from. -/
theorem roundtrip_arg (t : List Char) (v : Value) (h : Matches t v)
    (w : WireVal) (hw : message_append_arg t v = .ok w) :
    message_read_arg w = some v :=
  (roundtrip_all (vsize v + 1)).1 t v h (by omega) w hw

/-- A value sequence decodes back to the sequence it was encoded
from. -/
theorem roundtrip_args (sigM : List Char) (vs : List Value)
    (h : MatchesSeq sigM vs) (cs : List Char)
    (hcs : cs = [] ∨ cs = [')'] ∨ cs = ['}']) (ws : List WireVal)
    (hw : message_append_args (sigM ++ cs) vs = .ok ws) :
    message_read_args ws = some vs :=
  (roundtrip_all (vlsize vs + 1)).2.1 sigM vs h (by omega) cs hcs ws hw
/-! ## Claim C1 -/

/-- C1: for every signature accepted by the validator and every value
sequence whose shape matches it, decoding the wire representation
produced by a **successful** encode yields exactly the original
sequence (the embedding keeps dict entries in insertion order, so the
key-order caveat of the claim is not even needed).  The success
hypothesis is necessary: the claim as stated is false, because an
accepted signature can fail to encode — see
`c1_empty_struct_counterexample`. -/
theorem c1_roundtrip_of_encode_ok (sig : List Char) (vs : List Value)
    (ws : List WireVal) (hsig : check_signature sig = true)
    (hm : MatchesSeq sig vs)
    (henc : message_append_args sig vs = .ok ws) :
    message_read_args ws = some vs :=
  roundtrip_args sig vs hm [] (Or.inl rfl) ws
    (by rw [List.append_nil]; exact henc)

/-- C1 witness: the signature "is" with the values `(1, "a")`. -/
theorem c1_roundtrip_of_encode_ok_witness :
    message_read_args [.int32 1, .string ['a']] =
      some [Value.int 1, Value.str ['a']] := by
  have hm : MatchesSeq ['i', 's'] [Value.int 1, Value.str ['a']] :=
    MatchesSeq.cons ['i', 's'] ['i'] ['s'] (Value.int 1) [Value.str ['a']]
      rfl (Matches.int32 1 (by decide) (by decide))
      (MatchesSeq.cons ['s'] ['s'] [] (Value.str ['a']) [] rfl
        (Matches.string ['a']) MatchesSeq.nil)
  have hsig : check_signature ['i', 's'] = true := by
    simp [check_signature, _check_signature, checkSigCore, get_one_full_type,
      basicTypeCodes, nul]
  have henc : message_append_args ['i', 's'] [Value.int 1, Value.str ['a']] =
      .ok [.int32 1, .string ['a']] := by
    simp [message_append_args, message_append_arg, appendElems, appendStruct,
      appendVariant, appendArrayList, appendArrayDict, appendDictEntryArg,
      appendArrayBytes, message_append_basic, get_one_full_type, skipCloser,
      pySeqItems, pyDictItems, check_number, check_number_cache, pyLongVal,
      pyAsLong, nul, wrapS, wrapU, strItem, byteItem]
    rfl
  exact c1_roundtrip_of_encode_ok ['i', 's'] [Value.int 1, Value.str ['a']]
    [.int32 1, .string ['a']] hsig hm henc

/-- C1 counterexample: the validator accepts the empty struct signature
"()" and the empty tuple matches it, but encoding raises `too few
arguments` (the C loop treats the closing parenthesis as one more full
type), so no wire representation exists and the claimed round trip
fails. -/
theorem c1_empty_struct_counterexample :
    check_signature ['(', ')'] = true ∧
    MatchesSeq ['(', ')'] [Value.tuple []] ∧
    message_append_args ['(', ')'] [Value.tuple []] =
      .error .tooFewArguments := by
  refine ⟨?_, ?_, ?_⟩
  · simp [check_signature, _check_signature, checkSigCore, get_one_full_type,
      scanEnd, basicTypeCodes, closerOk, nul]
  · exact MatchesSeq.cons ['(', ')'] ['(', ')'] [] (Value.tuple []) [] rfl
      (Matches.struct [')'] [] rfl MatchesSeq.nil) MatchesSeq.nil
  · simp [message_append_args, message_append_arg, appendElems, appendStruct,
      appendVariant, appendArrayList, appendArrayDict, appendDictEntryArg,
      appendArrayBytes, message_append_basic, get_one_full_type, scanEnd,
      skipCloser, pySeqItems, pyDictItems, check_number, check_number_cache,
      pyLongVal, pyAsLong, nul, wrapS, wrapU, strItem, byteItem]

/-! ## Claim C2 -/

/-- C2: the claim is false of the code.  On the input "a1i" (array of a
non-type) with both depth counters 0, `_check_signature` NUL-terminates
the parsed full type "a1" in place and then returns through the
`*ptr != 'a'`/basic-type failure path without restoring the saved byte:
the buffer is left as "a1\x00", with byte 2 changed from 'i' to NUL.
The buffered model returns the C result paired with the buffer as left
on return. -/
theorem c2_buffer_left_modified :
    checkSignatureBuffered ['a', '1', 'i'] 0 0 =
      some (false, ['a', '1', nul]) ∧
    (['a', '1', nul] ≠ ['a', '1', 'i']) :=
  ⟨rfl, by decide⟩

/-! ## Claim C9 -/

/-- Flattening the split reproduces the input: `split_signature` only
cuts the signature into consecutive full types (stated with an explicit
length bound to recurse on). -/
theorem split_signature_flatten_bounded :
    ∀ (n : Nat) (s : List Char), s.length ≤ n →
      ∀ ts, split_signature s = some ts → ts.flatten = s := by
  intro n
  induction n with
  | zero =>
      intro s hlen ts h
      have hs : s = [] := List.length_eq_zero.mp (by omega)
      subst hs
      rw [split_signature] at h
      obtain rfl : ts = [] := (Option.some.inj h).symm
      rfl
  | succ n ih =>
      intro s hlen ts h
      rw [split_signature] at h
      by_cases hs : s.isEmpty
      · rw [if_pos hs] at h
        obtain rfl : ts = [] := (Option.some.inj h).symm
        simp [List.isEmpty_iff.mp hs]
      · rw [if_neg hs] at h
        split at h
        · simp at h
        · rename_i t r heq
          simp only [Option.map_eq_some'] at h
          obtain ⟨ts2, hts2, hcons⟩ := h
          subst hcons
          obtain ⟨hsp, hpos⟩ := get_one_full_type_spec s t r heq
          rw [List.flatten_cons]
          rw [ih r (by rw [hsp] at hlen; simp at hlen; omega) ts2 hts2]
          exact hsp.symm

theorem split_signature_flatten (s : List Char) :
    ∀ ts, split_signature s = some ts → ts.flatten = s :=
  split_signature_flatten_bounded s.length s le_rfl

/-- C9: `split_signature` enumerates the top-level full types in order,
without recursing into their contents: the three examples of the claim,
and in general the enumerated types concatenate back to the input. -/
theorem c9_split_signature_top_level :
    split_signature ['i', 'i'] = some [['i'], ['i']] ∧
    split_signature ['a', 'i'] = some [['a', 'i']] ∧
    split_signature ['a', '{', 'i', 's', '}'] =
      some [['a', '{', 'i', 's', '}']] ∧
    (∀ s ts, split_signature s = some ts → ts.flatten = s) := by
  refine ⟨?_, ?_, ?_, fun s ts h => split_signature_flatten s ts h⟩
  · simp [split_signature, get_one_full_type, nul]
  · simp [split_signature, get_one_full_type, nul]
  · simp [split_signature, get_one_full_type, scanEnd, nul]

/-! ## Claim C10 -/

/-- C10: `split_signature` checks only structure, not the type-code
alphabet: any single character other than 'a', an opener, or NUL is
split into the one-element list of its own one-character full type; if
the character is additionally outside the fourteen basic type codes
(such as 'Z'), `check_signature` nevertheless rejects the same
string. -/
theorem c10_split_structural_only (c : Char) (h1 : c ≠ 'a') (h2 : c ≠ '(')
    (h3 : c ≠ '{') (h4 : c ≠ nul) :
    split_signature [c] = some [[c]] ∧
    (c ∉ basicTypeCodes → check_signature [c] = false) := by
  have hone : get_one_full_type [c] = some ([c], []) := by
    simp [get_one_full_type, h1, h2, h3]
  constructor
  · rw [split_signature]
    rw [if_neg (by simp)]
    split
    · rename_i hnone
      rw [hone] at hnone
      simp at hnone
    · rename_i t r heq
      rw [hone] at heq
      simp only [Option.some.injEq, Prod.mk.injEq] at heq
      obtain ⟨rfl, rfl⟩ := heq
      rw [show split_signature [] = some [] from by rw [split_signature]; rfl]
      rfl
  · intro hc
    show (checkSigCore [c] 0 0 && decide ([c].length ≤ 255)) = false
    rw [checkSigCore]
    split
    · rename_i hnone
      rw [hone] at hnone
      simp at hnone
    · rename_i t r heq
      rw [hone] at heq
      simp only [Option.some.injEq, Prod.mk.injEq] at heq
      obtain ⟨rfl, rfl⟩ := heq
      rw [if_pos (by simp)]
      have hcf : basicTypeCodes.contains ([c].headD nul) = false := by
        rw [List.headD_cons]
        simpa using hc
      rw [hcf]
      rfl

/-- C10 witness: the character 'Z'. -/
theorem c10_split_structural_only_witness :
    split_signature ['Z'] = some [['Z']] ∧ check_signature ['Z'] = false := by
  have h := c10_split_structural_only 'Z' (by decide) (by decide) (by decide)
    (by decide)
  exact ⟨h.1, h.2 (by decide)⟩

/-! ## Claim C5 -/

/-- C5: `check_number` on an integer succeeds exactly when the value
lies within the bounds-table range of the fixed-width type code, and
fails with the `out of range` error otherwise, for each of the seven
range-checked codes; and encoding 300 against 'y' (byte, bounds 0..255)
fails with that range error. -/
theorem c5_check_number_ranges (n : Int) :
    (check_number (Value.int n) 'y' =
      if 0 ≤ n ∧ n ≤ 255 then .ok () else .error (.outOfRange 'y')) ∧
    (check_number (Value.int n) 'q' =
      if 0 ≤ n ∧ n ≤ 65535 then .ok () else .error (.outOfRange 'q')) ∧
    (check_number (Value.int n) 'u' =
      if 0 ≤ n ∧ n ≤ 4294967295 then .ok ()
      else .error (.outOfRange 'u')) ∧
    (check_number (Value.int n) 't' =
      if 0 ≤ n ∧ n ≤ 18446744073709551615 then .ok ()
      else .error (.outOfRange 't')) ∧
    (check_number (Value.int n) 'n' =
      if -32768 ≤ n ∧ n ≤ 32767 then .ok ()
      else .error (.outOfRange 'n')) ∧
    (check_number (Value.int n) 'i' =
      if -2147483648 ≤ n ∧ n ≤ 2147483647 then .ok ()
      else .error (.outOfRange 'i')) ∧
    (check_number (Value.int n) 'x' =
      if -9223372036854775808 ≤ n ∧ n ≤ 9223372036854775807 then .ok ()
      else .error (.outOfRange 'x')) ∧
    message_append_arg ['y'] (Value.int 300) = .error (.outOfRange 'y') := by
  refine ⟨?_, ?_, ?_, ?_, ?_, ?_, ?_, ?_⟩
  · rw [show check_number (Value.int n) 'y' =
        (if n < 0 ∨ 255 < n then .error (.outOfRange 'y') else .ok ())
        from rfl]
    by_cases h : 0 ≤ n ∧ n ≤ 255
    · rw [if_pos h, if_neg (by omega)]
    · rw [if_neg h, if_pos (by omega)]
  · rw [show check_number (Value.int n) 'q' =
        (if n < 0 ∨ 65535 < n then .error (.outOfRange 'q') else .ok ())
        from rfl]
    by_cases h : 0 ≤ n ∧ n ≤ 65535
    · rw [if_pos h, if_neg (by omega)]
    · rw [if_neg h, if_pos (by omega)]
  · rw [show check_number (Value.int n) 'u' =
        (if n < 0 ∨ 4294967295 < n then .error (.outOfRange 'u') else .ok ())
        from rfl]
    by_cases h : 0 ≤ n ∧ n ≤ 4294967295
    · rw [if_pos h, if_neg (by omega)]
    · rw [if_neg h, if_pos (by omega)]
  · rw [show check_number (Value.int n) 't' =
        (if n < 0 ∨ 18446744073709551615 < n then .error (.outOfRange 't')
         else .ok ()) from rfl]
    by_cases h : 0 ≤ n ∧ n ≤ 18446744073709551615
    · rw [if_pos h, if_neg (by omega)]
    · rw [if_neg h, if_pos (by omega)]
  · rw [show check_number (Value.int n) 'n' =
        (if n < -32768 ∨ 32767 < n then .error (.outOfRange 'n') else .ok ())
        from rfl]
    by_cases h : -32768 ≤ n ∧ n ≤ 32767
    · rw [if_pos h, if_neg (by omega)]
    · rw [if_neg h, if_pos (by omega)]
  · rw [show check_number (Value.int n) 'i' =
        (if n < -2147483648 ∨ 2147483647 < n then .error (.outOfRange 'i')
         else .ok ()) from rfl]
    by_cases h : -2147483648 ≤ n ∧ n ≤ 2147483647
    · rw [if_pos h, if_neg (by omega)]
    · rw [if_neg h, if_pos (by omega)]
  · rw [show check_number (Value.int n) 'x' =
        (if n < -9223372036854775808 ∨ 9223372036854775807 < n then
          .error (.outOfRange 'x') else .ok ()) from rfl]
    by_cases h : -9223372036854775808 ≤ n ∧ n ≤ 9223372036854775807
    · rw [if_pos h, if_neg (by omega)]
    · rw [if_neg h, if_pos (by omega)]
  · rw [append_arg_basic_eq 'y' (Value.int 300) (by decide) (by decide)
      (by decide) (by decide)]
    rfl

/-! ## Claim C6 -/

/-- Key lookup in the modelled dict (`PyDict_GetItem` view of the entry
list): the value of the first entry whose key compares equal. -/
def dictLookup : List (Value × Value) → Value → Option Value
  | [], _ => none
  | p :: d, k => if veq p.1 k then some p.2 else dictLookup d k

theorem dictLookup_map_ne (d : List (Value × Value)) (k v kq : Value)
    (hq : kq ≠ k) :
    dictLookup (d.map (fun p => if veq p.1 k then (p.1, v) else p)) kq =
      dictLookup d kq := by
  induction d with
  | nil => rfl
  | cons p d2 ih =>
      by_cases hpk : veq p.1 k = true
      · simp only [List.map_cons, if_pos hpk]
        by_cases hpq : veq p.1 kq = true
        · exact absurd
            (((veq_iff p.1 kq).mp hpq).symm.trans ((veq_iff p.1 k).mp hpk)) hq
        · simp only [dictLookup, if_neg hpq]
          exact ih
      · simp only [List.map_cons, if_neg hpk]
        by_cases hpq : veq p.1 kq = true
        · simp only [dictLookup, if_pos hpq]
        · simp only [dictLookup, if_neg hpq]
          exact ih

theorem dictLookup_map_hit (d : List (Value × Value)) (k v : Value)
    (hany : d.any (fun p => veq p.1 k) = true) :
    dictLookup (d.map (fun p => if veq p.1 k then (p.1, v) else p)) k =
      some v := by
  induction d with
  | nil => simp at hany
  | cons p d2 ih =>
      by_cases hpk : veq p.1 k = true
      · simp only [List.map_cons, if_pos hpk, dictLookup]
      · have hany2 : d2.any (fun p => veq p.1 k) = true := by
          simp only [List.any_cons, hpk, Bool.false_or] at hany
          exact hany
        simp only [List.map_cons, if_neg hpk, dictLookup]
        exact ih hany2

theorem dictLookup_append_fresh (d : List (Value × Value)) (k v kq : Value)
    (hfresh : d.any (fun p => veq p.1 k) = false) :
    dictLookup (d ++ [(k, v)]) kq =
      if kq = k then some v else dictLookup d kq := by
  induction d with
  | nil =>
      simp only [List.nil_append]
      by_cases h : kq = k
      · subst h
        rw [if_pos rfl]
        simp [dictLookup, (veq_iff kq kq).mpr rfl]
      · have hke : veq k kq = false := by
          by_contra hc
          exact h (((veq_iff k kq).mp (by simpa using hc)).symm)
        rw [if_neg h]
        simp [dictLookup, hke]
  | cons p d2 ih =>
      have hpk : veq p.1 k = false := by
        simp only [List.any_cons, Bool.or_eq_false_iff] at hfresh
        exact hfresh.1
      have hfresh2 : d2.any (fun p => veq p.1 k) = false := by
        simp only [List.any_cons, Bool.or_eq_false_iff] at hfresh
        exact hfresh.2
      by_cases hpq : veq p.1 kq = true
      · have hne : kq ≠ k := by
          intro he
          have htr : veq p.1 k = true :=
            (veq_iff p.1 k).mpr (((veq_iff p.1 kq).mp hpq).trans he)
          rw [htr] at hpk
          exact Bool.noConfusion hpk
        simp only [List.cons_append, dictLookup, if_pos hpq, if_neg hne]
      · simp only [List.cons_append, dictLookup, if_neg hpq]
        exact ih hfresh2

/-- `PyDict_SetItem` makes the inserted value the one a later lookup of
that key sees, and leaves every other key unchanged. -/
theorem dictLookup_setItem (d : List (Value × Value)) (k v kq : Value) :
    dictLookup (dictSetItem d k v) kq =
      if kq = k then some v else dictLookup d kq := by
  by_cases hany : d.any (fun p => veq p.1 k) = true
  · rw [show dictSetItem d k v =
        d.map (fun p => if veq p.1 k then (p.1, v) else p) from by
      unfold dictSetItem
      rw [if_pos hany]]
    by_cases hq : kq = k
    · subst hq
      rw [if_pos rfl]
      exact dictLookup_map_hit d kq v hany
    · rw [if_neg hq]
      exact dictLookup_map_ne d k v kq hq
  · rw [show dictSetItem d k v = d ++ [(k, v)] from by
      unfold dictSetItem
      rw [if_neg hany]]
    exact dictLookup_append_fresh d k v kq (by simpa using hany)

/-- C6: the decoder builds the dict of an array-of-dict-entry by
decoding entries in wire order and inserting each with `PyDict_SetItem`
(definitionally, `readDictItems`); an insertion makes its value the one
found for its key and changes no other key, so the later of two
same-key entries wins — as the concrete decode of two entries with key
1 shows. -/
theorem c6_dict_decode_last_wins :
    (∀ (d : List (Value × Value)) (k v kq : Value),
      dictLookup (dictSetItem d k v) kq =
        if kq = k then some v else dictLookup d kq) ∧
    message_read_arg (.array ['{', 'i', 's', '}']
      [.dictEntry [.int32 1, .string ['a']],
       .dictEntry [.int32 1, .string ['b']]]) =
      some (.dict [(Value.int 1, Value.str ['b'])]) :=
  ⟨dictLookup_setItem, by rfl⟩

/-! ## Claim C4 -/

/-- Lock-step encoding: each full type paired with its value, in
order (the claim-side rendering of "encodes each value against its
corresponding full type in order"). -/
def encodePairs : List (List Char × Value) → Except PyErr (List WireVal)
  | [] => .ok []
  | (t, v) :: ps => do
      let w ← message_append_arg t v
      let ws ← encodePairs ps
      pure (w :: ws)

/-- The validator validates the remainder after one full type. -/
theorem checkSigCore_rest (s t rest : List Char) (a d : Nat)
    (hone : get_one_full_type s = some (t, rest))
    (h : checkSigCore s a d = true) : checkSigCore rest a d = true := by
  rw [checkSigCore] at h
  split at h
  · rename_i heq
    rw [hone] at heq
    exact Option.noConfusion heq
  · rename_i t2 rest2 heq
    rw [hone] at heq
    simp only [Option.some.injEq, Prod.mk.injEq] at heq
    obtain ⟨rfl, rfl⟩ := heq
    simp only [Bool.and_eq_true] at h
    exact h.2

/-- A signature whose first character is a bracket closer never
validates: the closer parses as a one-character full type outside the
basic alphabet. -/
theorem checkSigCore_closer_head (c : Char) (rest2 : List Char) (a d : Nat)
    (hc : c = ')' ∨ c = '}') : checkSigCore (c :: rest2) a d = false := by
  have hone : get_one_full_type (c :: rest2) = some ([c], rest2) := by
    rcases hc with h | h <;> subst h <;> simp [get_one_full_type]
  rw [checkSigCore]
  split
  · rfl
  · rename_i t r heq
    rw [hone] at heq
    simp only [Option.some.injEq, Prod.mk.injEq] at heq
    obtain ⟨rfl, rfl⟩ := heq
    rcases hc with h | h <;> subst h <;> rfl

/-- Under a validated signature whose split has exactly as many full
types as there are values, the encoder loop is the lock-step pairwise
encode. -/
theorem append_args_zip (ts : List (List Char)) :
    ∀ (sig : List Char) (vs : List Value), checkSigCore sig 0 0 = true →
      split_signature sig = some ts → ts.length = vs.length →
      message_append_args sig vs = encodePairs (ts.zip vs) := by
  induction ts with
  | nil =>
      intro sig vs hchk hsplit hlen
      have hsig : sig = [] := by
        rw [split_signature] at hsplit
        by_cases hs : sig.isEmpty
        · exact List.isEmpty_iff.mp hs
        · rw [if_neg hs] at hsplit
          split at hsplit
          · simp at hsplit
          · simp only [Option.map_eq_some'] at hsplit
            obtain ⟨ts2, _, hcons⟩ := hsplit
            simp at hcons
      subst hsig
      have hvs : vs = [] := List.length_eq_zero.mp (by simpa using hlen.symm)
      subst hvs
      rw [message_append_args_nil]
      rfl
  | cons t ts2 ih =>
      intro sig vs hchk hsplit hlen
      rw [split_signature] at hsplit
      by_cases hs : sig.isEmpty
      · rw [if_pos hs] at hsplit
        simp at hsplit
      · rw [if_neg hs] at hsplit
        split at hsplit
        · simp at hsplit
        · rename_i t0 r0 heq
          simp only [Option.map_eq_some'] at hsplit
          obtain ⟨ts3, hts3, hcons⟩ := hsplit
          obtain ⟨h1, h2⟩ := List.cons_eq_cons.mp hcons
          subst h1
          subst h2
          cases vs with
          | nil => simp at hlen
          | cons v vs2 =>
              rw [message_append_args_cons2 sig t0 r0 v vs2 heq]
              have hrest : checkSigCore r0 0 0 = true :=
                checkSigCore_rest sig t0 r0 0 0 heq hchk
              have hsk : skipCloser r0 = r0 := by
                unfold skipCloser
                rw [if_neg]
                intro hor
                cases hr0 : r0 with
                | nil =>
                    rw [hr0] at hor
                    simp [nul] at hor
                | cons c0 r2 =>
                    rw [hr0] at hor hrest
                    rw [List.headD_cons] at hor
                    rw [checkSigCore_closer_head c0 r2 0 0 hor] at hrest
                    exact Bool.noConfusion hrest
              rw [hsk]
              rw [ih r0 vs2 hrest hts3 (by simpa using hlen)]
              rfl

/-- C4 (amended): matching lengths give the lock-step pairwise encode;
fewer values than top-level full types raises `too few arguments`, more
raises `too many arguments` (the claimed arity examples).  The claim's
"exactly when" is refuted by `c4_type_error_preempts_arity`: a
mismatched length can surface a per-value type error instead of an
arity error. -/
theorem c4_arity_and_lockstep (sig : List Char) (ts : List (List Char))
    (vs : List Value) (hsig : check_signature sig = true)
    (hsplit : split_signature sig = some ts)
    (hlen : ts.length = vs.length) :
    message_append_args sig vs = encodePairs (ts.zip vs) ∧
    message_append_args ['i', 'i'] [Value.int 1] =
      .error .tooFewArguments ∧
    message_append_args ['i', 'i'] [Value.int 1, Value.int 2, Value.int 3] =
      .error .tooManyArguments := by
  refine ⟨?_, ?_, ?_⟩
  · have hchk : checkSigCore sig 0 0 = true := by
      have h2 := hsig
      rw [check_signature] at h2
      unfold _check_signature at h2
      simp only [Bool.and_eq_true] at h2
      exact h2.1
    exact append_args_zip ts sig vs hchk hsplit hlen
  · simp [message_append_args, message_append_arg, message_append_basic,
      get_one_full_type, skipCloser, check_number, check_number_cache,
      pyLongVal, pyAsLong, nul, wrapS]
    rfl
  · simp [message_append_args, message_append_arg, message_append_basic,
      get_one_full_type, skipCloser, check_number, check_number_cache,
      pyLongVal, pyAsLong, nul, wrapS]
    rfl

/-- C4 witness: the signature "is" with values `(1, "a")`. -/
theorem c4_arity_and_lockstep_witness :
    message_append_args ['i', 's'] [Value.int 1, Value.str ['a']] =
      encodePairs ([['i'], ['s']].zip [Value.int 1, Value.str ['a']]) ∧
    message_append_args ['i', 'i'] [Value.int 1] =
      .error .tooFewArguments ∧
    message_append_args ['i', 'i'] [Value.int 1, Value.int 2, Value.int 3] =
      .error .tooManyArguments :=
  c4_arity_and_lockstep ['i', 's'] [['i'], ['s']]
    [Value.int 1, Value.str ['a']]
    (by simp [check_signature, _check_signature, checkSigCore,
      get_one_full_type, basicTypeCodes, nul])
    (by simp [split_signature, get_one_full_type, nul]) (by decide)

/-- C4 counterexample to "exactly when": three values against the
two-type signature "ii" is a length mismatch, yet the encoder fails
with the per-value type error `expecting int argument for 'i' format`
on the first value - not with an arity error. -/
theorem c4_type_error_preempts_arity :
    (List.length [Value.str ['x'], Value.str ['y'], Value.str ['z']] ≠
      List.length [['i'], ['i']]) ∧
    split_signature ['i', 'i'] = some [['i'], ['i']] ∧
    message_append_args ['i', 'i']
      [Value.str ['x'], Value.str ['y'], Value.str ['z']] =
      .error (.expectingInt 'i') := by
  refine ⟨by decide, ?_, ?_⟩
  · simp [split_signature, get_one_full_type, nul]
  · simp [message_append_args, message_append_arg, message_append_basic,
      get_one_full_type, skipCloser, check_number, check_number_cache,
      pyLongVal, pyAsLong, nul, wrapS]
    rfl

/-! ## Claim C8 -/

theorem bool_eq_of_iff (b c : Bool) (h : b = true ↔ c = true) : b = c := by
  cases b <;> cases c <;> simp_all

/-- Reading a NUL-free buffer yields NUL exactly past its end. -/
theorem rd_nul_iff (s : List Char) (hnul : nul ∉ s) (i : Nat) :
    rd s i = nul ↔ s.length ≤ i := by
  unfold rd
  constructor
  · intro h
    by_contra hlt
    push_neg at hlt
    rw [List.getD_eq_getElem s nul hlt] at h
    exact hnul (h ▸ List.getElem_mem hlt)
  · intro h
    exact List.getD_eq_default s nul h

theorem pathLoop_all (path : List Char) (hnul : nul ∉ path) :
    ∀ (k i : Nat), path.length - i ≤ k →
      (∀ j, i ≤ j → j < path.length → pathCharOk path j = true) →
      pathLoop path i = some (max i path.length) := by
  intro k
  induction k with
  | zero =>
      intro i hk hall
      have hge : path.length ≤ i := by omega
      rw [pathLoop, dif_pos ((rd_nul_iff path hnul i).mpr hge)]
      congr 1
      omega
  | succ k ihk =>
      intro i hk hall
      by_cases hge : path.length ≤ i
      · rw [pathLoop, dif_pos ((rd_nul_iff path hnul i).mpr hge)]
        congr 1
        omega
      · push_neg at hge
        rw [pathLoop, dif_neg (by rw [rd_nul_iff path hnul i]; omega)]
        rw [if_pos (hall i le_rfl hge)]
        rw [ihk (i + 1) (by omega) (fun j hj1 hj2 => hall j (by omega) hj2)]
        congr 1
        omega

theorem pathLoop_some (path : List Char) (hnul : nul ∉ path) :
    ∀ (k i e : Nat), path.length - i ≤ k → pathLoop path i = some e →
      e = max i path.length ∧
        (∀ j, i ≤ j → j < path.length → pathCharOk path j = true) := by
  intro k
  induction k with
  | zero =>
      intro i e hk h
      have hge : path.length ≤ i := by omega
      rw [pathLoop, dif_pos ((rd_nul_iff path hnul i).mpr hge)] at h
      obtain rfl : e = i := (Option.some.inj h).symm
      exact ⟨by omega, fun j hj1 hj2 => absurd hj2 (by omega)⟩
  | succ k ihk =>
      intro i e hk h
      by_cases hge : path.length ≤ i
      · rw [pathLoop, dif_pos ((rd_nul_iff path hnul i).mpr hge)] at h
        obtain rfl : e = i := (Option.some.inj h).symm
        exact ⟨by omega, fun j hj1 hj2 => absurd hj2 (by omega)⟩
      · push_neg at hge
        rw [pathLoop, dif_neg (by rw [rd_nul_iff path hnul i]; omega)] at h
        by_cases hok : pathCharOk path i = true
        · rw [if_pos hok] at h
          obtain ⟨he, hrest⟩ := ihk (i + 1) e (by omega) h
          refine ⟨by omega, fun j hj1 hj2 => ?_⟩
          rcases Nat.eq_or_lt_of_le hj1 with he2 | hlt
          · rw [← he2]
            exact hok
          · exact hrest j (by omega) hj2
        · rw [if_neg hok] at h
          exact Option.noConfusion h

/-- C8 core: on NUL-free input (a C string cannot contain an interior
NUL) `_check_path` accepts exactly the claimed grammar. -/
theorem _check_path_eq_pathSpec (s : List Char) (hnul : nul ∉ s) :
    _check_path s = pathSpec s := by
  apply bool_eq_of_iff
  constructor
  · intro h
    unfold _check_path at h
    by_cases h0 : rd s 0 = '/'
    case neg => rw [if_neg h0] at h; exact Bool.noConfusion h
    rw [if_pos h0] at h
    have hne : s ≠ [] := by
      intro he
      subst he
      exact absurd h0 (by decide)
    have hlen : 1 ≤ s.length := List.length_pos.mpr hne
    cases hloop : pathLoop s 1 with
    | none => rw [hloop] at h; exact Bool.noConfusion h
    | some i =>
        rw [hloop] at h
        obtain ⟨hi, hall⟩ := pathLoop_some s hnul s.length 1 i (by omega) hloop
        have hie : i = s.length := by omega
        rw [hie] at h
        have h4 : (!(decide (1 < s.length) && rd s (s.length - 1) == '/')) =
            true := h
        unfold pathSpec
        simp only [Bool.and_eq_true, beq_iff_eq, List.all_eq_true]
        refine ⟨⟨h0, ?_⟩, ?_⟩
        · intro j hj
          simp only [List.mem_range] at hj
          exact hall (j + 1) (by omega) (by omega)
        · by_cases hL : s.length = 1
          · have hs : s = ['/'] := by
              cases s with
              | nil => exact absurd rfl hne
              | cons c s2 =>
                  have : s2 = [] := by
                    simp only [List.length_cons] at hL
                    exact List.length_eq_zero.mp (by omega)
                  subst this
                  have : c = '/' := h0
                  subst this
                  rfl
            subst hs
            simp
          · have h2 : rd s (s.length - 1) ≠ '/' := by
              intro hc
              rw [hc] at h4
              simp only [show (1 < s.length) = True from by
                simp only [eq_iff_iff, iff_true]; omega] at h4
              simp at h4
            simp [h2]
  · intro h
    unfold pathSpec at h
    simp only [Bool.and_eq_true, beq_iff_eq, List.all_eq_true] at h
    obtain ⟨⟨h0, hall⟩, hend⟩ := h
    have hne : s ≠ [] := by
      intro he
      subst he
      exact absurd h0 (by decide)
    have hlen : 1 ≤ s.length := List.length_pos.mpr hne
    unfold _check_path
    rw [if_pos h0]
    rw [pathLoop_all s hnul s.length 1 (by omega) (fun j hj1 hj2 => by
      have hm := hall (j - 1) (List.mem_range.mpr (by omega))
      rw [show j - 1 + 1 = j from by omega] at hm
      exact hm)]
    rw [show max 1 s.length = s.length from by omega]
    show (!(decide (1 < s.length) && rd s (s.length - 1) == '/')) = true
    by_cases hL : s.length = 1
    · rw [show decide (1 < s.length) = false from by
        simp only [decide_eq_false_iff_not]; omega]
      rfl
    · have h3 : rd s (s.length - 1) ≠ '/' := by
        rcases (Bool.or_eq_true _ _).mp hend with h4 | h4
        · simpa using h4
        · have h5 : s = ['/'] := by simpa using h4
          rw [h5] at hL
          simp at hL
      simp [h3]

/-- C8: the object-path validator accepts exactly the claimed grammar
(on NUL-free input), and in particular accepts "/" and rejects "//" and
"a//b". -/
theorem c8_path_grammar (s : List Char) (hnul : nul ∉ s) :
    _check_path s = pathSpec s ∧
    _check_path ['/'] = true ∧
    _check_path ['/', '/'] = false ∧
    _check_path ['a', '/', '/', 'b'] = false := by
  refine ⟨_check_path_eq_pathSpec s hnul, ?_, ?_, ?_⟩
  · rw [_check_path, if_pos (by decide)]
    rw [show pathLoop ['/'] 1 = some 1 from by rw [pathLoop]; rfl]
    rfl
  · rw [_check_path, if_pos (by decide)]
    rw [show pathLoop ['/', '/'] 1 = none from by
      rw [pathLoop]
      rfl]
  · rw [_check_path, if_neg (by decide)]

/-- C8 witness: the path "/ab". -/
theorem c8_path_grammar_witness :
    (_check_path ['/', 'a', 'b'] = pathSpec ['/', 'a', 'b']) ∧
    _check_path ['/'] = true ∧
    _check_path ['/', '/'] = false ∧
    _check_path ['a', '/', '/', 'b'] = false :=
  c8_path_grammar ['/', 'a', 'b'] (by decide)

/-! ## Claim C7 -/

theorem busNameLoop_all (name : List Char) (hnul : nul ∉ name) :
    ∀ (k i nd : Nat), name.length - i ≤ k →
      (∀ j, i ≤ j → j < name.length → busNameCharOk name j = true) →
      busNameLoop name i nd =
        some (max i name.length, nd + (name.drop i).count '.') := by
  intro k
  induction k with
  | zero =>
      intro i nd hk hall
      have hge : name.length ≤ i := by omega
      rw [busNameLoop, dif_pos ((rd_nul_iff name hnul i).mpr hge)]
      rw [List.drop_eq_nil_of_le hge]
      simp only [List.count_nil, Option.some.injEq, Prod.mk.injEq]
      constructor <;> omega
  | succ k ihk =>
      intro i nd hk hall
      by_cases hge : name.length ≤ i
      · rw [busNameLoop, dif_pos ((rd_nul_iff name hnul i).mpr hge)]
        rw [List.drop_eq_nil_of_le hge]
        simp only [List.count_nil, Option.some.injEq, Prod.mk.injEq]
        constructor <;> omega
      · push_neg at hge
        rw [busNameLoop, dif_neg (by rw [rd_nul_iff name hnul i]; omega)]
        rw [if_pos (hall i le_rfl hge)]
        rw [ihk (i + 1) _ (by omega) (fun j hj1 hj2 => hall j (by omega) hj2)]
        have hdrop : name.drop i = rd name i :: name.drop (i + 1) := by
          unfold rd
          rw [List.getD_eq_getElem name nul hge]
          exact List.drop_eq_getElem_cons hge
        rw [hdrop, List.count_cons]
        simp only [Option.some.injEq, Prod.mk.injEq]
        constructor
        · omega
        · by_cases hdot : rd name i = '.'
          · rw [show (rd name i == '.') = true from beq_iff_eq.mpr hdot]
            simp only [eq_self_iff_true, if_true]
            omega
          · rw [show (rd name i == '.') = false from
              beq_eq_false_iff_ne.mpr hdot]
            simp only [Bool.false_eq_true, if_false]
            omega

theorem busNameLoop_some (name : List Char) (hnul : nul ∉ name) :
    ∀ (k i nd e nds : Nat), name.length - i ≤ k →
      busNameLoop name i nd = some (e, nds) →
        e = max i name.length ∧ nds = nd + (name.drop i).count '.' ∧
          (∀ j, i ≤ j → j < name.length → busNameCharOk name j = true) := by
  intro k
  induction k with
  | zero =>
      intro i nd e nds hk h
      have hge : name.length ≤ i := by omega
      rw [busNameLoop, dif_pos ((rd_nul_iff name hnul i).mpr hge)] at h
      simp only [Option.some.injEq, Prod.mk.injEq] at h
      obtain ⟨rfl, rfl⟩ := h
      rw [List.drop_eq_nil_of_le hge]
      exact ⟨by omega, by simp, fun j hj1 hj2 => absurd hj2 (by omega)⟩
  | succ k ihk =>
      intro i nd e nds hk h
      by_cases hge : name.length ≤ i
      · rw [busNameLoop, dif_pos ((rd_nul_iff name hnul i).mpr hge)] at h
        simp only [Option.some.injEq, Prod.mk.injEq] at h
        obtain ⟨rfl, rfl⟩ := h
        rw [List.drop_eq_nil_of_le hge]
        exact ⟨by omega, by simp, fun j hj1 hj2 => absurd hj2 (by omega)⟩
      · push_neg at hge
        rw [busNameLoop, dif_neg (by rw [rd_nul_iff name hnul i]; omega)] at h
        by_cases hok : busNameCharOk name i = true
        · rw [if_pos hok] at h
          obtain ⟨he, hnds, hrest⟩ := ihk (i + 1) _ e nds (by omega) h
          have hdrop : name.drop i = rd name i :: name.drop (i + 1) := by
            unfold rd
            rw [List.getD_eq_getElem name nul hge]
            exact List.drop_eq_getElem_cons hge
          refine ⟨by omega, ?_, fun j hj1 hj2 => ?_⟩
          · rw [hdrop, List.count_cons]
            by_cases hdot : rd name i = '.'
            · rw [show (rd name i == '.') = true from beq_iff_eq.mpr hdot]
                at hnds ⊢
              simp only [eq_self_iff_true, if_true] at hnds ⊢
              omega
            · rw [show (rd name i == '.') = false from
                beq_eq_false_iff_ne.mpr hdot] at hnds ⊢
              simp only [Bool.false_eq_true, if_false] at hnds ⊢
              omega
          · rcases Nat.eq_or_lt_of_le hj1 with he2 | hlt
            · rw [← he2]
              exact hok
            · exact hrest j (by omega) hj2
        · rw [if_neg hok] at h
          exact Option.noConfusion h

/-- The C loop test and the claimed per-character grammar admit the same
strings without a leading dot: the C checks a dot only against its left
neighbour, and a dot with a dot to its right is caught one position
later. -/
theorem busNameChar_equiv (s : List Char) (hnul : nul ∉ s)
    (h0 : rd s 0 ≠ '.') :
    (∀ j, j < s.length → busNameCharOk s j = true) ↔
    (∀ j, j < s.length → busNameSpecCharOk s j = true) := by
  constructor
  · intro hall j hj
    have hc := hall j hj
    simp only [busNameCharOk, Bool.or_eq_true, Bool.and_eq_true, beq_iff_eq,
      bne_iff_ne, decide_eq_true_eq, ne_eq] at hc
    simp only [busNameSpecCharOk, Bool.or_eq_true, Bool.and_eq_true,
      beq_iff_eq, bne_iff_ne, decide_eq_true_eq, ne_eq]
    rcases hc with ((((ha | hb) | hc2) | ⟨⟨hd, hp1⟩, hp2⟩) | ⟨hcl, hi0⟩) |
      ⟨⟨hdg, hipos⟩, hor⟩
    · exact Or.inl (Or.inl (Or.inl (Or.inl (Or.inl ha))))
    · exact Or.inl (Or.inl (Or.inl (Or.inl (Or.inr hb))))
    · exact Or.inl (Or.inl (Or.inl (Or.inr hc2)))
    · refine Or.inl (Or.inl (Or.inr ⟨⟨hd, Or.inr ⟨hp1, hp2⟩⟩, ?_⟩))
      intro hnx
      have hj1 : j + 1 < s.length := by
        by_contra hge
        push_neg at hge
        have hnul2 := (rd_nul_iff s hnul (j + 1)).mpr (by omega)
        rw [hnul2] at hnx
        exact absurd hnx (by decide)
      have hc1 := hall (j + 1) hj1
      simp only [busNameCharOk, Bool.or_eq_true, Bool.and_eq_true,
        beq_iff_eq, bne_iff_ne, decide_eq_true_eq, ne_eq,
        Nat.add_sub_cancel] at hc1
      rw [hnx] at hc1
      rcases hc1 with ((((ha1 | hb1) | hc21) | ⟨⟨hd1, hp11⟩, hp21⟩) |
        ⟨hcl1, hi01⟩) | ⟨⟨hdg1, hipos1⟩, hor1⟩
      · exact absurd ha1 (by decide)
      · exact absurd hb1 (by decide)
      · exact absurd hc21 (by decide)
      · exact absurd hd hp11
      · exact absurd hcl1 (by decide)
      · exact absurd hdg1 (by decide)
    · exact Or.inl (Or.inr ⟨hcl, hi0⟩)
    · exact Or.inr ⟨⟨hdg, by omega⟩, hor⟩
  · intro hall j hj
    have hc := hall j hj
    simp only [busNameSpecCharOk, Bool.or_eq_true, Bool.and_eq_true,
      beq_iff_eq, bne_iff_ne, decide_eq_true_eq, ne_eq] at hc
    simp only [busNameCharOk, Bool.or_eq_true, Bool.and_eq_true, beq_iff_eq,
      bne_iff_ne, decide_eq_true_eq, ne_eq]
    rcases hc with ((((ha | hb) | hc2) | ⟨⟨hd, hor⟩, hnx⟩) | ⟨hcl, hi0⟩) |
      ⟨⟨hdg, hne0⟩, hor⟩
    · exact Or.inl (Or.inl (Or.inl (Or.inl (Or.inl ha))))
    · exact Or.inl (Or.inl (Or.inl (Or.inl (Or.inr hb))))
    · exact Or.inl (Or.inl (Or.inl (Or.inr hc2)))
    · rcases hor with h00 | ⟨hp1, hp2⟩
      · rw [h00] at hd
        exact absurd hd h0
      · exact Or.inl (Or.inl (Or.inr ⟨⟨hd, hp1⟩, hp2⟩))
    · exact Or.inl (Or.inr ⟨hcl, hi0⟩)
    · exact Or.inr ⟨⟨hdg, by omega⟩, hor⟩

/-- C7 core: on NUL-free input `_check_bus_name` accepts exactly the
claimed grammar. -/
theorem _check_bus_name_eq_busNameSpec (s : List Char) (hnul : nul ∉ s) :
    _check_bus_name s = busNameSpec s := by
  apply bool_eq_of_iff
  constructor
  · intro h
    unfold _check_bus_name at h
    by_cases h0 : rd s 0 = '.'
    · rw [if_pos h0] at h
      exact Bool.noConfusion h
    rw [if_neg h0] at h
    cases hloop : busNameLoop s 0 0 with
    | none => rw [hloop] at h; exact Bool.noConfusion h
    | some p =>
        obtain ⟨i, nds⟩ := p
        rw [hloop] at h
        obtain ⟨hi, hnds, hall⟩ :=
          busNameLoop_some s hnul s.length 0 0 i nds (by omega) hloop
        have hie : i = s.length := by simpa using hi
        have hndse : nds = s.count '.' := by simpa using hnds
        rw [hie, hndse] at h
        have h2 : (rd s (s.length - 1) == '.' || s.count '.' == 0 ||
            decide (255 < s.length)) = false := by
          rw [Bool.not_eq_true'] at h
          exact h
        simp only [Bool.or_eq_false_iff, beq_eq_false_iff_ne, ne_eq,
          decide_eq_false_iff_not, not_lt] at h2
        obtain ⟨⟨hA, hB⟩, hC⟩ := h2
        unfold busNameSpec
        simp only [Bool.and_eq_true, Bool.not_eq_true', beq_eq_false_iff_ne,
          ne_eq, List.all_eq_true, decide_eq_true_eq]
        refine ⟨⟨⟨⟨h0, ?_⟩, hA⟩, ?_⟩, by omega⟩
        · intro j hjm
          simp only [List.mem_range] at hjm
          exact (busNameChar_equiv s hnul h0).mp
            (fun j2 hj2 => hall j2 (by omega) hj2) j hjm
        · intro hcz
          exact hB (by simpa using hcz)
  · intro h
    unfold busNameSpec at h
    simp only [Bool.and_eq_true, Bool.not_eq_true', beq_eq_false_iff_ne,
      ne_eq, List.all_eq_true, decide_eq_true_eq] at h
    obtain ⟨⟨⟨⟨h0, hall⟩, hA⟩, hB⟩, hC⟩ := h
    unfold _check_bus_name
    rw [if_neg h0]
    rw [busNameLoop_all s hnul s.length 0 0 (by omega) (fun j hj1 hj2 =>
      (busNameChar_equiv s hnul h0).mpr
        (fun j2 hj2b => hall j2 (List.mem_range.mpr hj2b)) j hj2)]
    rw [show max 0 s.length = s.length from by omega]
    rw [show (0 + (s.drop 0).count '.') = s.count '.' from by simp]
    show (!(rd s (s.length - 1) == '.' || s.count '.' == 0 ||
        decide (255 < s.length))) = true
    rw [Bool.not_eq_true']
    simp only [Bool.or_eq_false_iff, beq_eq_false_iff_ne, ne_eq,
      decide_eq_false_iff_not, not_lt]
    exact ⟨⟨hA, fun hz => hB (by simpa using hz)⟩, by omega⟩

/-- C7: the bus-name validator accepts exactly the claimed grammar on
NUL-free input; in particular ":1.42" is accepted and "foo" (no dot) is
rejected. -/
theorem c7_bus_name_grammar (s : List Char) (hnul : nul ∉ s) :
    _check_bus_name s = busNameSpec s ∧
    _check_bus_name [':', '1', '.', '4', '2'] = true ∧
    _check_bus_name ['f', 'o', 'o'] = false := by
  refine ⟨_check_bus_name_eq_busNameSpec s hnul, ?_, ?_⟩
  · unfold _check_bus_name
    rw [if_neg (by decide)]
    rw [show busNameLoop [':', '1', '.', '4', '2'] 0 0 = some (5, 1) from by
      simp [busNameLoop, busNameCharOk, rd, nul]]
    rfl
  · unfold _check_bus_name
    rw [if_neg (by decide)]
    rw [show busNameLoop ['f', 'o', 'o'] 0 0 = some (3, 0) from by
      simp [busNameLoop, busNameCharOk, rd, nul]]
    rfl

/-- C7 witness: the unique bus name ":1.42". -/
theorem c7_bus_name_grammar_witness :
    (_check_bus_name [':', '1', '.', '4', '2'] =
      busNameSpec [':', '1', '.', '4', '2']) ∧
    _check_bus_name [':', '1', '.', '4', '2'] = true ∧
    _check_bus_name ['f', 'o', 'o'] = false :=
  c7_bus_name_grammar [':', '1', '.', '4', '2'] (by decide)

/-! ## C3: rejection classes of `check_signature`

The claim describes five families of inputs the validator rejects:
unbalanced brackets, characters outside the signature alphabet, array
nesting depth 33, struct/dict-entry nesting depth 33, and length above
255.  The definitions below render those families as predicates over the
input string (they follow the claim's words, not the C code; `adepthS`
and `sdepthS` measure nesting along the `get_one_full_type` parse).  The
master lemma `checkSigCore_sound_bounded` shows every accepted string
avoids all five families. -/

/-- The characters that may appear at all in a valid signature: the 14
basic type codes, the array marker and the four bracket characters. -/
def sigCharOk (c : Char) : Bool :=
  basicTypeCodes.contains c || c == 'a' || c == '(' || c == ')' ||
    c == '{' || c == '}'

/-- Bracket matching: `balRun s st` scans `s` carrying the stack `st` of
expected closers; an opener pushes its closer, a closer must match the
top of the stack, and all other characters are skipped. -/
def balRun : List Char → List Char → Option (List Char)
  | [], st => some st
  | c :: rest, st =>
      if c = '(' then balRun rest (')' :: st)
      else if c = '{' then balRun rest ('}' :: st)
      else if c = ')' ∨ c = '}' then
        match st with
        | [] => none
        | top :: st2 => if top = c then balRun rest st2 else none
      else balRun rest st

/-- `s` has balanced `()` and `{}` brackets. -/
def balanced (s : List Char) : Bool :=
  match balRun s [] with
  | some [] => true
  | _ => false

/-- Array-nesting depth of a signature, measured along the
`get_one_full_type` parse: each array constructor adds one level around
its element type; struct and dict-entry brackets add none. -/
def adepthS (s : List Char) : Nat :=
  match h : get_one_full_type s with
  | none => 0
  | some (t, rest) =>
      (if t.length = 1 then 0
       else if t.headD nul = 'a' then 1 + adepthS (t.drop 1)
       else if t.headD nul = '(' ∨ t.headD nul = '{' then
         adepthS ((t.drop 1).dropLast)
       else 0).max (adepthS rest)
termination_by s.length
decreasing_by
  all_goals
    obtain ⟨hs, hpos⟩ := get_one_full_type_spec s t rest h
    subst hs
    simp only [List.length_append, List.length_drop, List.length_dropLast]
    omega

/-- Struct/dict-entry nesting depth of a signature, measured along the
`get_one_full_type` parse: each bracket pair adds one level around its
contents; array constructors add none. -/
def sdepthS (s : List Char) : Nat :=
  match h : get_one_full_type s with
  | none => 0
  | some (t, rest) =>
      (if t.length = 1 then 0
       else if t.headD nul = 'a' then sdepthS (t.drop 1)
       else if t.headD nul = '(' ∨ t.headD nul = '{' then
         1 + sdepthS ((t.drop 1).dropLast)
       else 0).max (sdepthS rest)
termination_by s.length
decreasing_by
  all_goals
    obtain ⟨hs, hpos⟩ := get_one_full_type_spec s t rest h
    subst hs
    simp only [List.length_append, List.length_drop, List.length_dropLast]
    omega

theorem adepthS_none (s : List Char) (h : get_one_full_type s = none) :
    adepthS s = 0 := by
  rw [adepthS]
  split
  · rfl
  · rename_i t r heq
    rw [h] at heq
    exact Option.noConfusion heq

theorem adepthS_eq (s t rest : List Char)
    (hone : get_one_full_type s = some (t, rest)) :
    adepthS s =
      (if t.length = 1 then 0
       else if t.headD nul = 'a' then 1 + adepthS (t.drop 1)
       else if t.headD nul = '(' ∨ t.headD nul = '{' then
         adepthS ((t.drop 1).dropLast)
       else 0).max (adepthS rest) := by
  rw [adepthS]
  split
  · rename_i heq
    rw [hone] at heq
    exact Option.noConfusion heq
  · rename_i t2 rest2 heq
    rw [hone] at heq
    simp only [Option.some.injEq, Prod.mk.injEq] at heq
    obtain ⟨rfl, rfl⟩ := heq
    rfl

theorem sdepthS_none (s : List Char) (h : get_one_full_type s = none) :
    sdepthS s = 0 := by
  rw [sdepthS]
  split
  · rfl
  · rename_i t r heq
    rw [h] at heq
    exact Option.noConfusion heq

theorem sdepthS_eq (s t rest : List Char)
    (hone : get_one_full_type s = some (t, rest)) :
    sdepthS s =
      (if t.length = 1 then 0
       else if t.headD nul = 'a' then sdepthS (t.drop 1)
       else if t.headD nul = '(' ∨ t.headD nul = '{' then
         1 + sdepthS ((t.drop 1).dropLast)
       else 0).max (sdepthS rest) := by
  rw [sdepthS]
  split
  · rename_i heq
    rw [hone] at heq
    exact Option.noConfusion heq
  · rename_i t2 rest2 heq
    rw [hone] at heq
    simp only [Option.some.injEq, Prod.mk.injEq] at heq
    obtain ⟨rfl, rfl⟩ := heq
    rfl

theorem balRun_append (x y : List Char) : ∀ st, balRun (x ++ y) st =
    (match balRun x st with
     | none => none
     | some st2 => balRun y st2) := by
  induction x with
  | nil => intro st; rfl
  | cons c r ih =>
      intro st
      by_cases h1 : c = '('
      · subst h1
        simp only [List.cons_append, balRun, if_pos rfl]
        exact ih _
      · by_cases h2 : c = '{'
        · subst h2
          simp only [List.cons_append, balRun,
            if_neg (by decide : ¬('{' = '(')), if_pos rfl]
          exact ih _
        · by_cases h3 : c = ')' ∨ c = '}'
          · simp only [List.cons_append, balRun, if_neg h1, if_neg h2,
              if_pos h3]
            cases st with
            | nil => rfl
            | cons top st2 =>
                by_cases h4 : top = c
                · simp only [if_pos h4]
                  exact ih _
                · simp only [if_neg h4]
          · simp only [List.cons_append, balRun, if_neg h1, if_neg h2,
              if_neg h3]
            exact ih _

theorem balRun_frame (x : List Char) : ∀ (st1 st2 ext : List Char),
    balRun x st1 = some st2 → balRun x (st1 ++ ext) = some (st2 ++ ext) := by
  induction x with
  | nil =>
      intro st1 st2 ext h
      simp only [balRun, Option.some.injEq] at h
      subst h
      rfl
  | cons c r ih =>
      intro st1 st2 ext h
      by_cases h1 : c = '('
      · subst h1
        simp only [balRun, if_pos rfl] at h ⊢
        exact ih _ _ _ h
      · by_cases h2 : c = '{'
        · subst h2
          simp only [balRun, if_neg (by decide : ¬('{' = '(')),
            if_pos rfl] at h ⊢
          exact ih _ _ _ h
        · by_cases h3 : c = ')' ∨ c = '}'
          · simp only [balRun, if_neg h1, if_neg h2, if_pos h3] at h ⊢
            cases st1 with
            | nil => simp at h
            | cons top st3 =>
                simp only [List.cons_append]
                by_cases h4 : top = c
                · simp only [if_pos h4] at h ⊢
                  exact ih _ _ _ h
                · simp only [if_neg h4] at h
                  exact Option.noConfusion h
          · simp only [balRun, if_neg h1, if_neg h2, if_neg h3] at h ⊢
            exact ih _ _ _ h

theorem balanced_append (x y : List Char) (hx : balanced x = true)
    (hy : balanced y = true) : balanced (x ++ y) = true := by
  unfold balanced at hx hy ⊢
  cases hbx : balRun x [] with
  | none => rw [hbx] at hx; simp at hx
  | some st =>
      rw [hbx] at hx
      cases st with
      | cons a l => simp at hx
      | nil =>
          rw [balRun_append x y [], hbx]
          exact hy

theorem balanced_basic (c : Char) (h : basicTypeCodes.contains c = true) :
    balanced [c] = true := by
  have h2 : c ∈ basicTypeCodes := by simpa using h
  fin_cases h2 <;> rfl

theorem balanced_cons_array (l : List Char) :
    balanced ('a' :: l) = balanced l := by
  unfold balanced
  rw [show balRun ('a' :: l) [] = balRun l [] from by simp [balRun]]

theorem balanced_wrap (op cl : Char) (inner : List Char)
    (hop : (op = '(' ∧ cl = ')') ∨ (op = '{' ∧ cl = '}'))
    (h : balanced inner = true) : balanced (op :: (inner ++ [cl])) = true := by
  have hrun : balRun inner [] = some [] := by
    unfold balanced at h
    cases hbx : balRun inner [] with
    | none => rw [hbx] at h; simp at h
    | some st =>
        rw [hbx] at h
        cases st with
        | nil => rfl
        | cons a l => simp at h
  have hframe : balRun inner [cl] = some [cl] := by
    have h2 := balRun_frame inner [] [] [cl] hrun
    simpa using h2
  rcases hop with ⟨h1, h2⟩ | ⟨h1, h2⟩ <;> subst h1 <;> subst h2 <;>
    unfold balanced
  · rw [show balRun ('(' :: (inner ++ [')'])) [] =
        balRun (inner ++ [')']) [')'] from by simp [balRun]]
    rw [balRun_append inner [')'] [')'], hframe]
    rfl
  · rw [show balRun ('{' :: (inner ++ ['}'])) [] =
        balRun (inner ++ ['}']) ['}'] from by simp [balRun]]
    rw [balRun_append inner ['}'] ['}'], hframe]
    rfl

theorem headD_cons_decomp (t : List Char) (h : 0 < t.length) :
    t = t.headD nul :: t.drop 1 := by
  cases t with
  | nil => simp at h
  | cons c tr => rfl

theorem depth_max_combine (x y a : Nat) (hx : x = 0 ∨ x + a ≤ 32)
    (hy : y = 0 ∨ y + a ≤ 32) : Nat.max x y = 0 ∨ Nat.max x y + a ≤ 32 := by
  have hd : Nat.max x y = if x ≤ y then y else x := rfl
  rw [hd]
  split
  · exact hy
  · exact hx

/-- The branch facts recorded by one pass of the `checkSigCore` loop for
the full type at the front of the input.  The final catch-all `true`
branch of the C `if`/`else if` chain is unreachable: a full type of
length at least two starts with `a`, `(` or `{`. -/
theorem checkSigCore_token (s t rest : List Char) (a d : Nat)
    (hone : get_one_full_type s = some (t, rest))
    (h : checkSigCore s a d = true) :
    (t.length = 1 ∧ basicTypeCodes.contains (t.headD nul) = true) ∨
    (¬ t.length = 1 ∧ t.headD nul = 'a' ∧ a < 32 ∧
      checkSigCore (t.drop 1) (a + 1) d = true) ∨
    (¬ t.length = 1 ∧ (t.headD nul = '(' ∨ t.headD nul = '{') ∧ d < 32 ∧
      checkSigCore ((t.drop 1).dropLast) a (d + 1) = true ∧
      closerOk (t.headD nul) (t.getLastD nul) = true) := by
  rw [checkSigCore] at h
  split at h
  · rename_i heq
    rw [hone] at heq
    exact Option.noConfusion heq
  · rename_i t2 rest2 heq
    rw [hone] at heq
    simp only [Option.some.injEq, Prod.mk.injEq] at heq
    obtain ⟨rfl, rfl⟩ := heq
    simp only [Bool.and_eq_true] at h
    obtain ⟨h1, _⟩ := h
    by_cases hl : t.length = 1
    · rw [if_pos hl] at h1
      exact Or.inl ⟨hl, h1⟩
    · rw [if_neg hl] at h1
      by_cases hha : t.headD nul = 'a'
      · rw [if_pos hha] at h1
        simp only [Bool.and_eq_true, decide_eq_true_eq] at h1
        exact Or.inr (Or.inl ⟨hl, hha, h1.1, h1.2.1⟩)
      · rw [if_neg hha] at h1
        by_cases hbr : t.headD nul = '(' ∨ t.headD nul = '{'
        · rw [if_pos hbr] at h1
          simp only [Bool.and_eq_true, decide_eq_true_eq] at h1
          exact Or.inr (Or.inr ⟨hl, hbr, h1.1.1, h1.1.2.1, h1.2⟩)
        · exfalso
          obtain ⟨_, hpos⟩ := get_one_full_type_spec s t rest hone
          have h2 : 2 ≤ t.length := by omega
          rcases get_one_full_type_long_head s t rest hone h2 with hh | hh | hh
          · exact hha hh
          · exact hbr (Or.inl hh)
          · exact hbr (Or.inr hh)

/-- Soundness of the validator loop: an accepted string uses only
signature characters, has balanced brackets, and respects the remaining
depth budgets `32 - arraydepth` and `32 - structdepth`. -/
theorem checkSigCore_sound_bounded :
    ∀ (k : Nat) (s : List Char) (a d : Nat), s.length ≤ k →
      checkSigCore s a d = true →
      (∀ c ∈ s, sigCharOk c = true) ∧ balanced s = true ∧
        (adepthS s = 0 ∨ adepthS s + a ≤ 32) ∧
        (sdepthS s = 0 ∨ sdepthS s + d ≤ 32) := by
  intro k
  induction k with
  | zero =>
      intro s a d hk _
      have hnil : s = [] := List.length_eq_zero.mp (by omega)
      subst hnil
      refine ⟨by simp, rfl, ?_, ?_⟩
      · left; rw [adepthS_none [] rfl]
      · left; rw [sdepthS_none [] rfl]
  | succ k ih =>
      intro s a d hk h
      cases hone : get_one_full_type s with
      | none =>
          have hnil : s = [] := by
            rw [checkSigCore] at h
            split at h
            · exact List.isEmpty_iff.mp h
            · rename_i t r heq
              rw [hone] at heq
              exact Option.noConfusion heq
          subst hnil
          refine ⟨by simp, rfl, ?_, ?_⟩
          · left; rw [adepthS_none [] rfl]
          · left; rw [sdepthS_none [] rfl]
      | some tr =>
          obtain ⟨t, rest⟩ := tr
          obtain ⟨hs, hpos⟩ := get_one_full_type_spec s t rest hone
          have hrest : checkSigCore rest a d = true :=
            checkSigCore_rest s t rest a d hone h
          have hlens : t.length + rest.length = s.length := by
            rw [hs]; simp
          have ihrest := ih rest a d (by omega) hrest
          have hA := adepthS_eq s t rest hone
          have hS := sdepthS_eq s t rest hone
          rcases checkSigCore_token s t rest a d hone h with
            ⟨hl1, hbasic⟩ | ⟨hl1, hha, hlt32, hinner⟩ |
              ⟨hl1, hbr, hlt32, hinner, hclose⟩
          · obtain ⟨c0, rfl⟩ := List.length_eq_one.mp hl1
            simp only [List.headD_cons] at hbasic
            refine ⟨?_, ?_, ?_, ?_⟩
            · intro c hc
              rw [hs] at hc
              rcases List.mem_append.mp hc with hc | hc
              · rw [List.mem_singleton.mp hc]
                simp only [sigCharOk, hbasic, Bool.true_or]
              · exact ihrest.1 c hc
            · rw [hs]
              exact balanced_append [c0] rest (balanced_basic c0 hbasic)
                ihrest.2.1
            · rw [hA, if_pos hl1]
              exact depth_max_combine _ _ _ (Or.inl rfl) ihrest.2.2.1
            · rw [hS, if_pos hl1]
              exact depth_max_combine _ _ _ (Or.inl rfl) ihrest.2.2.2
          · have hdecomp := headD_cons_decomp t hpos
            rw [hha] at hdecomp
            have hlen2 : (t.drop 1).length ≤ k := by
              simp only [List.length_drop]
              omega
            have ihinner := ih (t.drop 1) (a + 1) d hlen2 hinner
            refine ⟨?_, ?_, ?_, ?_⟩
            · intro c hc
              rw [hs] at hc
              rcases List.mem_append.mp hc with hc | hc
              · rw [hdecomp] at hc
                rcases List.mem_cons.mp hc with hc | hc
                · subst hc; rfl
                · exact ihinner.1 c hc
              · exact ihrest.1 c hc
            · rw [hs, hdecomp, List.cons_append, balanced_cons_array]
              exact balanced_append _ _ ihinner.2.1 ihrest.2.1
            · rw [hA, if_neg hl1, if_pos hha]
              refine depth_max_combine _ _ _ ?_ ihrest.2.2.1
              right
              rcases ihinner.2.2.1 with h0 | hle <;> omega
            · rw [hS, if_neg hl1, if_pos hha]
              exact depth_max_combine _ _ _ ihinner.2.2.2 ihrest.2.2.2
          · obtain ⟨op, cl, hopcl, hhead⟩ : ∃ op cl,
                ((op = '(' ∧ cl = ')') ∨ (op = '{' ∧ cl = '}')) ∧
                  t.headD nul = op := by
              rcases hbr with hh | hh
              · exact ⟨'(', ')', Or.inl ⟨rfl, rfl⟩, hh⟩
              · exact ⟨'{', '}', Or.inr ⟨rfl, rfl⟩, hh⟩
            have hlast := get_one_full_type_closer s t rest op cl hone
              hopcl hhead
            have hdecomp1 := headD_cons_decomp t hpos
            rw [hhead] at hdecomp1
            have hdnil : t.drop 1 ≠ [] := by
              intro hh
              have h0 : (t.drop 1).length = 0 := by rw [hh]; rfl
              simp only [List.length_drop] at h0
              omega
            have hlast2 : (t.drop 1).getLast? = some cl := by
              cases hd : t.drop 1 with
              | nil => exact absurd hd hdnil
              | cons y l =>
                  rw [hdecomp1, hd] at hlast
                  exact getLast?_tail op y l cl hlast
            have hdecomp2 : (t.drop 1).dropLast ++ [cl] = t.drop 1 :=
              dropLast_append_getLast? (t.drop 1) cl hlast2
            have hinlen : (t.drop 1).dropLast.length ≤ k := by
              simp only [List.length_dropLast, List.length_drop]
              omega
            have ihinner := ih ((t.drop 1).dropLast) a (d + 1) hinlen hinner
            have hna : ¬ t.headD nul = 'a' := by
              rcases hopcl with ⟨h1, _⟩ | ⟨h1, _⟩ <;> rw [hhead, h1] <;> decide
            refine ⟨?_, ?_, ?_, ?_⟩
            · intro c hc
              rw [hs] at hc
              rcases List.mem_append.mp hc with hc | hc
              · rw [hdecomp1] at hc
                rcases List.mem_cons.mp hc with hc | hc
                · subst hc
                  rcases hopcl with ⟨h1, _⟩ | ⟨h1, _⟩ <;> rw [h1] <;> rfl
                · rw [← hdecomp2] at hc
                  rcases List.mem_append.mp hc with hc | hc
                  · exact ihinner.1 c hc
                  · rw [List.mem_singleton.mp hc]
                    rcases hopcl with ⟨_, h2⟩ | ⟨_, h2⟩ <;> rw [h2] <;> rfl
              · exact ihrest.1 c hc
            · rw [hs, hdecomp1, ← hdecomp2, List.cons_append]
              exact balanced_append _ _
                (balanced_wrap op cl _ hopcl ihinner.2.1) ihrest.2.1
            · rw [hA, if_neg hl1, if_neg hna, if_pos hbr]
              exact depth_max_combine _ _ _ ihinner.2.2.1 ihrest.2.2.1
            · rw [hS, if_neg hl1, if_neg hna, if_pos hbr]
              refine depth_max_combine _ _ _ ?_ ihrest.2.2.2
              right
              rcases ihinner.2.2.2 with h0 | hle <;> omega

/-- **C3.** `check_signature` rejects every string with unbalanced
brackets, every string containing a character outside the signature
alphabet, every string whose array nesting depth reaches 33, every
string whose struct/dict-entry nesting depth reaches 33, and every
string longer than 255 characters. -/
theorem c3_validator_rejections (s : List Char)
    (h : balanced s = false ∨ (∃ c ∈ s, sigCharOk c = false) ∨
      33 ≤ adepthS s ∨ 33 ≤ sdepthS s ∨ 255 < s.length) :
    check_signature s = false := by
  cases hc : check_signature s with
  | false => rfl
  | true =>
      exfalso
      unfold check_signature _check_signature at hc
      simp only [Bool.and_eq_true, decide_eq_true_eq] at hc
      obtain ⟨hcore, hlen⟩ := hc
      obtain ⟨hchars, hbal, had, hsd⟩ :=
        checkSigCore_sound_bounded s.length s 0 0 (le_refl _) hcore
      rcases h with h | h | h | h | h
      · rw [hbal] at h
        exact Bool.noConfusion h
      · obtain ⟨c, hcm, hcf⟩ := h
        rw [hchars c hcm] at hcf
        exact Bool.noConfusion hcf
      · rcases had with h0 | hle <;> omega
      · rcases hsd with h0 | hle <;> omega
      · omega

/-- C3 witness: the unbalanced "(i", the unknown code "Z" and a
256-character signature are all rejected. -/
theorem c3_validator_rejections_witness :
    check_signature ['(', 'i'] = false ∧
    check_signature ['Z'] = false ∧
    check_signature (List.replicate 256 'i') = false :=
  ⟨c3_validator_rejections ['(', 'i'] (Or.inl (by decide)),
   c3_validator_rejections ['Z']
     (Or.inr (Or.inl ⟨'Z', by simp, by decide⟩)),
   c3_validator_rejections (List.replicate 256 'i')
     (Or.inr (Or.inr (Or.inr (Or.inr
       (by rw [List.length_replicate]; omega)))))⟩

end Dbusx
